import Mathlib

/-!
Verification of the galachain-docs-mcp documentation indexer against its
natural-language specification.

The development shallowly embeds the TypeScript sources:
  * src/indexer/parse-markdown.ts  (guide parser)
  * src/indexer/parse-typedoc.ts   (reference parser)
  * src/db/schema.ts / queries     (relevance scoring, store queries)
  * src/indexer/build-index.ts     (row insertion)
  * src/tools/*.ts                 (tool layer)

Strings are modelled over ASCII: JavaScript's toLowerCase, the regex
classes \w and \s, and case-insensitive matching are embedded with their
ASCII meaning, which covers every input the claims exercise.  JavaScript
regular expressions used by the sources are embedded as hand-derived
deterministic scanners; each scanner's doc comment records the regex it
embeds and the backtracking analysis justifying the derivation.
-/

namespace GalaDocs

/-! ## Character and string helpers (ASCII model of the JS primitives) -/
/-- JS regex class \w = [A-Za-z0-9_]. -/
def isWordChar (c : Char) : Bool := c = '_' || c.isAlphanum

/-- JS regex class \s restricted to ASCII whitespace. -/
def isWsChar (c : Char) : Bool :=
  c = ' ' || c = '\t' || c = '\n' || c = '\x0d' || c = '\x0b' || c = '\x0c'

/-- ASCII lowering, the model of JS toLowerCase on the inputs considered. -/
def asciiLower (c : Char) : Char := c.toLower

/-- Model of JS String.prototype.toLowerCase. -/
def lowerStr (s : String) : String := String.mk (s.data.map asciiLower)

/-- Case-insensitive character equality (regex flag i, ASCII model). -/
def eqCI (a b : Char) : Bool := asciiLower a = asciiLower b

/-- Does the needle occur at the head of the haystack, case-insensitively? -/
def isPreCI : List Char → List Char → Bool
  | [], _ => true
  | _ :: _, [] => false
  | a :: as, b :: bs => eqCI a b && isPreCI as bs

/-- Substring test on character lists (model of JS String.prototype.includes). -/
def hasSub (hay needle : List Char) : Bool :=
  if needle.isPrefixOf hay then true
  else match hay with
    | [] => false
    | _ :: t => hasSub t needle

/-- Model of JS includes: true iff the second string occurs inside the first. -/
def containsSub (hay needle : String) : Bool := hasSub hay.data needle.data

/-- First index at which the needle occurs in the haystack (JS indexOf). -/
def indexOfSub (hay needle : List Char) : Option Nat :=
  match hay with
  | [] => if needle = [] then some 0 else none
  | _ :: t =>
    if needle.isPrefixOf hay then some 0
    else (indexOfSub t needle).map (· + 1)

/-- Is the character at index i of the list a word character (out of range: no)? -/
def wordAtPos (cs : List Char) (i : Nat) : Bool :=
  match cs.get? i with
  | some c => isWordChar c
  | none => false

/-- JS regex \b at index i: word-ness changes across the position. -/
def boundaryAt (cs : List Char) (i : Nat) : Bool :=
  (if i = 0 then false else wordAtPos cs (i - 1)) != wordAtPos cs i

/-- Model of new RegExp("\\b" + escapeRegex term + "\\b", "i").test(text)
    from src/db/schema.ts: the term occurs (case-insensitively, literally —
    escapeRegex makes every character literal) at a position enclosed by
    word boundaries. -/
def wholeWordTest (term text : String) : Bool :=
  let cs := text.data
  let t := term.data
  (List.range (cs.length + 1)).any fun i =>
    isPreCI t (cs.drop i) && boundaryAt cs i && boundaryAt cs (i + t.length)

/-- Longest whitespace-free leading run, lowered: the model of
    text.split(/\s+/)[0]?.toLowerCase() || '' (a leading whitespace makes
    the first split field empty, exactly as takeWhile yields the empty run). -/
def firstWordLower (text : String) : String :=
  lowerStr (String.mk (text.data.takeWhile (fun c => !isWsChar c)))

/-! ## Relevance scoring (calculateRelevance, src/db/schema.ts lines 293-319) -/
/-- Deduction contributed by one term inside the scoring loop of
    calculateRelevance: 20 for a whole-word hit else 10 for a substring hit,
    plus 30 when the first word of the text equals or contains the term. -/
def termDeduction (text : String) (term : String) : Int :=
  (if wholeWordTest term text then 20
   else if containsSub (lowerStr text) term then 10 else 0)
  + (let fw := firstWordLower text
     if fw = term || containsSub fw term then 30 else 0)

/-- Deduction for short texts: 5 below 100 characters, 5 more below 50. -/
def lengthDeduction (text : String) : Int :=
  (if text.length < 100 then 5 else 0) + (if text.length < 50 then 5 else 0)

/-- Embedding of calculateRelevance: start at 100, subtract per term inside
    the loop, subtract the length deductions, and clamp below at zero
    (the final Math.max(0, score)). -/
def calculateRelevance (text : String) (terms : List String) : Int :=
  let score := terms.foldl (fun sc t => sc - termDeduction text t) 100
  max 0 (score - lengthDeduction text)

/-- The score formula exactly as the claim words it (no clamping):
    100, minus the per-term deductions, minus the length deductions. -/
def claimRelevance (text : String) (terms : List String) : Int :=
  100 - (terms.map (termDeduction text)).sum - lengthDeduction text

/-! ## Guide parser (parseMarkdown, src/indexer/parse-markdown.ts) -/
/-- One emitted documentation chunk. -/
structure DocChunk where
  title : String
  content : String
  headingLevel : Nat
  package : String
  category : String
  filePath : String
  sourceUrl : String
deriving Repr, DecidableEq

/-- detectPackage from parse-markdown.ts. -/
def detectPackage (filePath : String) : String :=
  if containsSub filePath ("chain-api-docs") then "chain-api"
  else if containsSub filePath ("chain-client-docs") then "chain-client"
  else if containsSub filePath ("chain-test-docs") then "chain-test"
  else if containsSub filePath ("chaincode-docs") then "chaincode"
  else if containsSub filePath ("chain-cli") then "chain-cli"
  else "guides"

/-- detectCategory from parse-markdown.ts. -/
def detectCategory (filePath : String) : String :=
  if containsSub filePath ("-docs/") then "api"
  else if containsSub filePath ("getting-started") then "tutorial"
  else if containsSub filePath ("from-zero") then "tutorial"
  else if containsSub filePath ("README") then "reference"
  else if containsSub filePath ("CLAUDE") then "reference"
  else if containsSub filePath ("BREAKING") then "reference"
  else "guide"

/-- Embedding of filePath.match(/galachain-sdk[\/\\](.+)$/): the dot class
    excludes line terminators and $ anchors at the end of the string, so an
    occurrence of "galachain-sdk" followed by a slash matches exactly when
    the whole remainder is non-empty and newline-free; a failing occurrence
    makes the engine retry from the next position. -/
def sdkPathMatch : List Char → Option (List Char)
  | [] => none
  | cs@(_ :: t) =>
    if ("galachain-sdk".data).isPrefixOf cs then
      match cs.drop ("galachain-sdk".data.length) with
      | c :: rest =>
        if (c = '/' || c = '\\') && rest ≠ [] &&
            rest.all (fun x => x ≠ '\n' && x ≠ '\x0d') then
          some rest
        else sdkPathMatch t
      | [] => sdkPathMatch t
    else sdkPathMatch t

/-- relativePath.replace(/\\/g, '/'). -/
def slashify (cs : List Char) : String :=
  String.mk (cs.map fun c => if c = '\\' then '/' else c)

/-- filePathToUrl from parse-markdown.ts. -/
def filePathToUrl (filePath : String) : String :=
  match sdkPathMatch filePath.data with
  | some rel => "https://github.com/GalaChain/sdk/blob/main/" ++ slashify rel
  | none => "https://docs.galachain.com/"

/-- Block-level markdown tree, the image of the remark parse consumed by
    parseMarkdown.  The txt fields carry the mdast-util-to-string rendering
    of the node; children are the block-level descendants that
    unist-util-visit traverses after the node itself (inline descendants are
    omitted since the visitor ignores every inline node type). -/
inductive MdNode where
  | heading (depth : Nat) (txt : String)
  | paragraph (txt : String)
  | code (lang : String) (val : String)
  | list (itemTexts : List String) (children : List MdNode)
  | blockquote (txt : String) (children : List MdNode)
  | other (children : List MdNode)
deriving Repr

mutual

/-- Preorder node sequence traversed by visit(tree, ...): the node itself,
    then its descendants. -/
def flattenN : MdNode → List MdNode
  | .heading d t => [.heading d t]
  | .paragraph t => [.paragraph t]
  | .code l v => [.code l v]
  | .list ts cs => .list ts cs :: flattenL cs
  | .blockquote t cs => .blockquote t cs :: flattenL cs
  | .other cs => .other cs :: flattenL cs

/-- Preorder traversal of a node list. -/
def flattenL : List MdNode → List MdNode
  | [] => []
  | n :: ns => flattenN n ++ flattenL ns

end

/-- Fenced rendering of a code node pushed by the visitor. -/
def fenceStr (lang val : String) : String :=
  "```" ++ lang ++ "\n" ++ val ++ "\n```"

/-- listToString from parse-markdown.ts: one dash bullet per item. -/
def listToString (items : List String) : String :=
  String.intercalate ("\n") (items.map (fun t => "- " ++ t))

/-- Blockquote rendering pushed by the visitor. -/
def quoteStr (txt : String) : String := "> " ++ txt

/-- Per-file metadata computed once by parseMarkdown. -/
structure ChunkMeta where
  package : String
  category : String
  filePath : String
  sourceUrl : String

/-- The accumulator of parseMarkdown: current heading, its depth, the
    content strings collected so far, and the chunks already emitted. -/
structure PMAcc where
  heading : String
  level : Nat
  content : List String
  chunks : List DocChunk

/-- Chunk built from a finished accumulator (content joined by blank lines). -/
def mkChunk (meta : ChunkMeta) (h : String) (l : Nat) (cs : List String) : DocChunk :=
  { title := h
    content := String.intercalate ("\n\n") cs
    headingLevel := l
    package := meta.package
    category := meta.category
    filePath := meta.filePath
    sourceUrl := meta.sourceUrl }

/-- saveChunk: emit the current accumulator when it has a heading and
    at least one content string. -/
def pmSave (meta : ChunkMeta) (a : PMAcc) : List DocChunk :=
  if a.heading ≠ "" ∧ a.content ≠ [] then
    a.chunks ++ [mkChunk meta a.heading a.level a.content]
  else a.chunks

/-- One step of the visitor callback of parseMarkdown. -/
def pmStep (meta : ChunkMeta) (a : PMAcc) (n : MdNode) : PMAcc :=
  match n with
  | .heading d t => { heading := t, level := d, content := [], chunks := pmSave meta a }
  | .paragraph t => { a with content := a.content ++ [t] }
  | .code l v => { a with content := a.content ++ [fenceStr l v] }
  | .list ts _ => { a with content := a.content ++ [listToString ts] }
  | .blockquote t _ => { a with content := a.content ++ [quoteStr t] }
  | .other _ => a

/-- Embedding of parseMarkdown: visit every node in preorder, then flush
    the final accumulator. -/
def parseMarkdown (doc : List MdNode) (filePath : String) : List DocChunk :=
  let meta : ChunkMeta :=
    { package := detectPackage filePath
      category := detectCategory filePath
      filePath := filePath
      sourceUrl := filePathToUrl filePath }
  pmSave meta ((flattenL doc).foldl (pmStep meta) ⟨"", 1, [], []⟩)

/-- The string a node contributes as a content block, if it is one of the
    four content node types the claim names. -/
def contentText : MdNode → Option String
  | .paragraph t => some t
  | .code l v => some (fenceStr l v)
  | .list ts _ => some (listToString ts)
  | .blockquote t _ => some (quoteStr t)
  | _ => none

/-- Heading sections of a visited node sequence, following the claim's words:
    each heading opens a section collecting the content blocks that follow it
    up to the next heading; content before the first heading belongs to no
    section and is discarded. -/
def specSecs (cur : Option (String × Nat × List String)) :
    List MdNode → List (String × Nat × List String)
  | [] => cur.toList
  | n :: ns =>
    match n with
    | .heading d t => cur.toList ++ specSecs (some (t, d, [])) ns
    | _ =>
      match contentText n with
      | some s => specSecs (cur.map fun p => (p.1, p.2.1, p.2.2 ++ [s])) ns
      | none => specSecs cur ns

/-- Chunks the claim predicts: one per section with a non-empty heading and
    at least one content block, in document order. -/
def specChunks (doc : List MdNode) (filePath : String) : List DocChunk :=
  let meta : ChunkMeta :=
    { package := detectPackage filePath
      category := detectCategory filePath
      filePath := filePath
      sourceUrl := filePathToUrl filePath }
  (specSecs none (flattenL doc)).filterMap fun p =>
    if p.1 ≠ "" ∧ p.2.2 ≠ [] then some (mkChunk meta p.1 p.2.1 p.2.2) else none

/-- Emission of one finished section, shared by both sides. -/
def emitSec (meta : ChunkMeta) (p : String × Nat × List String) : List DocChunk :=
  if p.1 ≠ "" ∧ p.2.2 ≠ [] then [mkChunk meta p.1 p.2.1 p.2.2] else []

/-! ## JSON codec (model of the JSON.stringify / JSON.parse pair used by
    build-index.ts and schema.ts for the array- and object-valued columns).
    Numbers are modelled as integers; the program only ever stores strings,
    booleans, arrays and flat objects in these columns. -/
inductive Json where
  | null
  | bool (b : Bool)
  | num (n : Int)
  | str (s : String)
  | arr (xs : List Json)
  | obj (fields : List (String × Json))

/-- One hexadecimal digit, lower case. -/
def hexDigit (n : Nat) : Char :=
  if n < 10 then Char.ofNat (48 + n) else Char.ofNat (87 + (n - 10))

/-- JSON.stringify escaping of one string character. -/
def jsonEscChar (c : Char) : String :=
  if c = '"' then "\\\""
  else if c = '\\' then "\\\\"
  else if c = '\n' then "\\n"
  else if c = '\x0d' then "\\r"
  else if c = '\t' then "\\t"
  else if c = '\x08' then "\\b"
  else if c = '\x0c' then "\\f"
  else if c.toNat < 32 then
    "\\u00" ++ String.mk [hexDigit (c.toNat / 16), hexDigit (c.toNat % 16)]
  else String.mk [c]

/-- JSON string literal. -/
def jsonQuote (s : String) : String :=
  "\"" ++ String.join (s.data.map jsonEscChar) ++ "\""

mutual

/-- Model of JSON.stringify on the values the indexer stores. -/
def jsonStringify : Json → String
  | .null => "null"
  | .bool true => "true"
  | .bool false => "false"
  | .num n => toString n
  | .str s => jsonQuote s
  | .arr xs => "[" ++ jsonStringifyList xs ++ "]"
  | .obj fs => "\x7b" ++ jsonStringifyFields fs ++ "\x7d"

def jsonStringifyList : List Json → String
  | [] => ""
  | [x] => jsonStringify x
  | x :: xs => jsonStringify x ++ "," ++ jsonStringifyList xs

def jsonStringifyFields : List (String × Json) → String
  | [] => ""
  | [f] => jsonQuote f.1 ++ ":" ++ jsonStringify f.2
  | f :: fs => jsonQuote f.1 ++ ":" ++ jsonStringify f.2 ++ "," ++ jsonStringifyFields fs

end

/-- JSON whitespace. -/
def isJsonWs (c : Char) : Bool := c = ' ' || c = '\t' || c = '\n' || c = '\x0d'

/-- Value of a hexadecimal digit. -/
def hexVal (c : Char) : Option Nat :=
  if c.isDigit then some (c.toNat - 48)
  else if 'a' ≤ c && c ≤ 'f' then some (c.toNat - 87)
  else if 'A' ≤ c && c ≤ 'F' then some (c.toNat - 55)
  else none

/-- Body of a JSON string literal after the opening quote: returns the
    decoded characters and the rest after the closing quote.  Control
    characters and bad escapes make the parse fail, as JSON.parse does. -/
def jsonStrBody : List Char → Option (List Char × List Char)
  | [] => none
  | '"' :: rest => some ([], rest)
  | '\\' :: 'u' :: h1 :: h2 :: h3 :: h4 :: rest => do
    let a ← hexVal h1
    let b ← hexVal h2
    let c ← hexVal h3
    let d ← hexVal h4
    let (tail, r) ← jsonStrBody rest
    pure (Char.ofNat (((a * 16 + b) * 16 + c) * 16 + d) :: tail, r)
  | '\\' :: e :: rest =>
    let dec : Option Char :=
      if e = '"' then some '"'
      else if e = '\\' then some '\\'
      else if e = '/' then some '/'
      else if e = 'b' then some '\x08'
      else if e = 'f' then some '\x0c'
      else if e = 'n' then some '\n'
      else if e = 'r' then some '\x0d'
      else if e = 't' then some '\t'
      else none
    match dec with
    | none => none
    | some c => (jsonStrBody rest).map fun p => (c :: p.1, p.2)
  | c :: rest =>
    if c.toNat < 32 then none
    else (jsonStrBody rest).map fun p => (c :: p.1, p.2)

/-- Digits of a JSON integer. -/
def jsonDigits (cs : List Char) : List Char × List Char :=
  (cs.takeWhile Char.isDigit, cs.dropWhile Char.isDigit)

/-- Digit run to a natural number. -/
def digitsToNat (ds : List Char) : Nat :=
  ds.foldl (fun n c => n * 10 + (c.toNat - 48)) 0

mutual

/-- Recursive-descent model of JSON.parse, fuelled (the fuel is given ample
    at the top entry).  Fractions and exponents are outside the model: the
    indexer never stores them. -/
def parseJsonVal : Nat → List Char → Option (Json × List Char)
  | 0, _ => none
  | fuel + 1, cs =>
    match cs.dropWhile isJsonWs with
    | '"' :: rest => (jsonStrBody rest).map fun p => (.str (String.mk p.1), p.2)
    | 't' :: 'r' :: 'u' :: 'e' :: r => some (.bool true, r)
    | 'f' :: 'a' :: 'l' :: 's' :: 'e' :: r => some (.bool false, r)
    | 'n' :: 'u' :: 'l' :: 'l' :: r => some (.null, r)
    | '[' :: rest =>
      (match rest.dropWhile isJsonWs with
       | ']' :: r => some (.arr [], r)
       | _ => (parseJsonElems fuel rest).map fun p => (.arr p.1, p.2))
    | '{' :: rest =>
      (match rest.dropWhile isJsonWs with
       | '}' :: r => some (.obj [], r)
       | _ => (parseJsonFields fuel rest).map fun p => (.obj p.1, p.2))
    | '-' :: rest =>
      (match jsonDigits rest with
       | ([], _) => none
       | (ds, r) => some (.num (-(digitsToNat ds : Int)), r))
    | c :: rest =>
      if c.isDigit then
        (match jsonDigits (c :: rest) with
         | (ds, r) => some (.num (digitsToNat ds : Int), r))
      else none
    | [] => none

/-- Comma-separated values up to the closing bracket. -/
def parseJsonElems : Nat → List Char → Option (List Json × List Char)
  | 0, _ => none
  | fuel + 1, cs => do
    let (v, rest) ← parseJsonVal fuel cs
    match rest.dropWhile isJsonWs with
    | ',' :: r => (parseJsonElems fuel r).map fun p => (v :: p.1, p.2)
    | ']' :: r => some ([v], r)
    | _ => none

/-- Comma-separated key-value pairs up to the closing brace. -/
def parseJsonFields : Nat → List Char → Option (List (String × Json) × List Char)
  | 0, _ => none
  | fuel + 1, cs =>
    match cs.dropWhile isJsonWs with
    | '"' :: rest => do
      let (key, r1) ← jsonStrBody rest
      match r1.dropWhile isJsonWs with
      | ':' :: r2 => do
        let (v, r3) ← parseJsonVal fuel r2
        match r3.dropWhile isJsonWs with
        | ',' :: r4 => (parseJsonFields fuel r4).map fun p =>
            ((String.mk key, v) :: p.1, p.2)
        | '}' :: r4 => some ([(String.mk key, v)], r4)
        | _ => none
      | _ => none
    | _ => none

end

/-- JSON.parse on a whole string. -/
def jsonParseTop (s : String) : Option Json :=
  match parseJsonVal (s.length + 2) s.data with
  | some (j, rest) => if rest.dropWhile isJsonWs = [] then some j else none
  | none => none

/-! ## Entity records produced by the reference parser (src/types.ts) -/
/-- One parsed parameter. -/
structure ParamInfo where
  name : String
  type : String
  description : String
  optional : Bool
deriving Repr, DecidableEq

/-- Parsed return information. -/
structure RetInfo where
  type : String
  description : String
deriving Repr, DecidableEq

/-- One parsed member (MemberInfo in src/types.ts). -/
structure MemberInfo where
  name : String
  type : String
  signature : String
  visibility : String
  isStatic : Bool
  isAsync : Bool
  description : String
  params : List ParamInfo
  returns : Option RetInfo
  decorators : List String
  exampleCode : Option String
deriving Repr, DecidableEq

/-- One parsed declaration (ClassInfo in src/types.ts). -/
structure ClassInfo where
  name : String
  package : String
  type : String
  description : String
  extendsClause : Option String
  implementsClause : List String
  decorators : List String
  members : List MemberInfo
  filePath : String
  sourceUrl : String
deriving Repr, DecidableEq

/-! ## Store rows and the store (src/db/schema.ts tables).  Nullable text
    columns that the code only reads through falsy-checks or || defaults are
    modelled as String with "" standing for NULL, which the code treats
    identically; columns whose null-ness the code distinguishes
    (extends_clause, returns, example_code) are Option String. -/
structure DocRow where
  id : Nat
  package : String
  category : String
  title : String
  content : String
  heading_level : Nat
  source_url : String
  file_path : String
  search_text : String
deriving Repr, DecidableEq

structure ClassRow where
  id : Nat
  package : String
  name : String
  type : String
  description : String
  extends_clause : Option String
  implements_clause : String
  decorators : String
  source_url : String
  file_path : String
  search_text : String
deriving Repr, DecidableEq

structure MemberRow where
  id : Nat
  class_id : Nat
  name : String
  type : String
  signature : String
  visibility : String
  is_static : Nat
  is_async : Nat
  description : String
  params : String
  returns : Option String
  decorators : String
  example_code : Option String
  search_text : String
deriving Repr, DecidableEq

/-- The relational store, tables in insertion (rowid) order, with the next
    AUTOINCREMENT ids. -/
structure Store where
  docs : List DocRow
  classes : List ClassRow
  members : List MemberRow
  nextDocId : Nat
  nextClassId : Nat
  nextMemberId : Nat
deriving Repr

/-! ## Row insertion (insertDoc / insertClass, src/indexer/build-index.ts) -/
/-- Search text stored for a class row. -/
def classSearchText (c : ClassInfo) : String :=
  lowerStr (c.name ++ " " ++ c.description ++ " " ++ String.intercalate (" ") c.decorators)

/-- Search text stored for a member row. -/
def memberSearchText (m : MemberInfo) : String :=
  lowerStr (m.name ++ " " ++ m.signature ++ " " ++ m.description ++ " " ++
    String.intercalate (" ") m.decorators)

/-- JSON image of one parameter, fields in the program's property order. -/
def paramToJson (p : ParamInfo) : Json :=
  .obj [("name", .str p.name), ("type", .str p.type),
        ("description", .str p.description), ("optional", .bool p.optional)]

/-- JSON image of the returns record. -/
def retToJson (r : RetInfo) : Json :=
  .obj [("type", .str r.type), ("description", .str r.description)]

/-- insertClass: append the class row, then one member row per member with
    class_id equal to the fresh class id (getLastInsertId). -/
def insertClass (s : Store) (c : ClassInfo) : Store :=
  let cid := s.nextClassId
  let row : ClassRow :=
    { id := cid
      package := c.package
      name := c.name
      type := c.type
      description := c.description
      extends_clause := c.extendsClause
      implements_clause := jsonStringify (.arr (c.implementsClause.map .str))
      decorators := jsonStringify (.arr (c.decorators.map .str))
      source_url := c.sourceUrl
      file_path := c.filePath
      search_text := classSearchText c }
  let memRows := c.members.enum.map fun (i, m) =>
    ({ id := s.nextMemberId + i
       class_id := cid
       name := m.name
       type := m.type
       signature := m.signature
       visibility := m.visibility
       is_static := if m.isStatic then 1 else 0
       is_async := if m.isAsync then 1 else 0
       description := m.description
       params := jsonStringify (.arr (m.params.map paramToJson))
       returns := m.returns.map fun r => jsonStringify (retToJson r)
       decorators := jsonStringify (.arr (m.decorators.map .str))
       example_code := m.exampleCode
       search_text := memberSearchText m } : MemberRow)
  { s with
    classes := s.classes ++ [row]
    members := s.members ++ memRows
    nextClassId := cid + 1
    nextMemberId := s.nextMemberId + c.members.length }

/-! ## Query layer (src/db/schema.ts second part / queries) -/
/-- SQL LIKE with % and _ wildcards, ASCII case-insensitive as SQLite's
    default LIKE is. -/
def likeMatch : List Char → List Char → Bool
  | [], [] => true
  | [], _ :: _ => false
  | '%' :: ps, t =>
    likeMatch ps t ||
      (match t with
       | [] => false
       | _ :: ts => likeMatch ('%' :: ps) ts)
  | '_' :: ps, t =>
    (match t with
     | [] => false
     | _ :: ts => likeMatch ps ts)
  | p :: ps, t =>
    (match t with
     | [] => false
     | c :: ts => eqCI p c && likeMatch ps ts)
termination_by ps t => (ps.length, t.length)

/-- One LIKE '%term%' condition. -/
def likeContains (text term : String) : Bool :=
  likeMatch ("%" ++ term ++ "%").data text.data

/-- Lower-cased whitespace-separated query terms:
    query.toLowerCase().split(/\s+/).filter(t => t.length > 0). -/
def queryTerms (q : String) : List String :=
  go (lowerStr q).data
where
  go : List Char → List String
    | [] => []
    | c :: t =>
      if isWsChar c then go t
      else String.mk (c :: t.takeWhile (fun x => !isWsChar x)) ::
        go (t.dropWhile (fun x => !isWsChar x))
  termination_by cs => cs.length
  decreasing_by
    · simp only [List.length_cons]; omega
    · simp only [List.length_cons]
      exact Nat.lt_succ_of_le ((List.dropWhile_suffix _).length_le)

/-- Query-time search result record. -/
structure SearchResult where
  id : Nat
  title : String
  snippet : String
  package : String
  category : String
  type : String
  sourceUrl : String
  rank : Int
deriving Repr, DecidableEq

/-- createSnippet from src/db/schema.ts: window of ~150 characters around
    the earliest term occurrence, with ellipses when cut. -/
def createSnippet (content : String) (terms : List String) : String :=
  let maxLen := 150
  let lower := (lowerStr content).data
  let found := terms.filterMap fun t => indexOfSub lower t.data
  let matchIndex := found.foldl
    (fun m i => match m with
      | none => some i
      | some j => if i < j then some i else some j) none
  match matchIndex with
  | none =>
    String.mk (content.data.take maxLen) ++
      (if content.length > maxLen then "..." else "")
  | some idx =>
    let start := idx - 40
    let stop := min content.length (idx + maxLen - 40)
    let snip := String.mk ((content.data.drop start).take (stop - start))
    (if start > 0 then "..." ++ snip else snip) ++
      (if stop < content.length then "..." else "")

/-- Package condition (? = 'all' OR package = ?). -/
def pkgOK (pkg p : String) : Bool := pkg = "all" || p = pkg

/-- All LIKE conditions for the terms. -/
def likesOK (terms : List String) (searchText : String) : Bool :=
  terms.all fun t => likeContains searchText t

/-- Docs branch of searchDocs. -/
def searchDocsDocs (s : Store) (terms : List String) (pkg : String) (limit : Nat) :
    List SearchResult :=
  ((s.docs.filter fun r => likesOK terms r.search_text && pkgOK pkg r.package).take
      limit).map fun r =>
    { id := r.id
      title := r.title
      snippet := createSnippet r.content terms
      package := r.package
      category := r.category
      type := "doc"
      sourceUrl := r.source_url
      rank := calculateRelevance (r.title ++ " " ++ r.content) terms }

/-- Classes branch of searchDocs (extra type condition on the rows). -/
def searchDocsClasses (s : Store) (terms : List String) (pkg ty : String) (limit : Nat) :
    List SearchResult :=
  ((s.classes.filter fun r =>
      likesOK terms r.search_text && pkgOK pkg r.package &&
        (ty = "all" || ty = "class" || r.type = ty)).take limit).map fun r =>
    { id := r.id
      title := r.name
      snippet :=
        if r.description ≠ "" then createSnippet r.description terms
        else r.type ++ " in " ++ r.package
      package := r.package
      category := r.type
      type := "class"
      sourceUrl := r.source_url
      rank := calculateRelevance (r.name ++ " " ++ r.description) terms }

/-- The members-to-classes inner join, member-major as the FROM/JOIN order
    scans it. -/
def memberJoin (s : Store) : List (MemberRow × ClassRow) :=
  s.members.flatMap fun m =>
    (s.classes.filter fun c => c.id = m.class_id).map fun c => (m, c)

/-- Members branch of searchDocs. -/
def searchDocsMembers (s : Store) (terms : List String) (pkg : String) (limit : Nat) :
    List SearchResult :=
  (((memberJoin s).filter fun mc =>
      likesOK terms mc.1.search_text && pkgOK pkg mc.2.package).take limit).map fun mc =>
    { id := mc.1.id
      title := mc.2.name ++ "." ++ mc.1.name
      snippet :=
        if mc.1.description ≠ "" then createSnippet mc.1.description terms
        else if mc.1.signature ≠ "" then mc.1.signature
        else mc.1.type ++ " in " ++ mc.2.name
      package := mc.2.package
      category := mc.1.type
      type := "method"
      sourceUrl := mc.2.source_url
      rank := calculateRelevance
        (mc.1.name ++ " " ++ mc.1.description ++ " " ++ mc.1.signature) terms }

/-- Stable insertion placing the new result after every already-placed
    result of rank less than or equal to its own. -/
def insertByRank (r : SearchResult) : List SearchResult → List SearchResult
  | [] => [r]
  | x :: xs => if x.rank ≤ r.rank then x :: insertByRank r xs else r :: x :: xs

/-- Stable ascending sort by rank, the model of the (stable) JS
    Array.prototype.sort with comparator (a, b) => a.rank - b.rank. -/
def sortByRank (l : List SearchResult) : List SearchResult :=
  l.foldl (fun acc r => insertByRank r acc) []

/-- Embedding of searchDocs: collect the three branches (each already
    LIMIT-ed), sort by rank, truncate to the limit. -/
def searchDocs (s : Store) (query : String) (pkg ty : String) (limit : Nat) :
    List SearchResult :=
  let terms := queryTerms query
  if terms = [] then []
  else
    let docR := if ty = "all" || ty = "guide" then searchDocsDocs s terms pkg limit else []
    let clsR :=
      if ty = "all" || ty = "class" || ty = "interface" then
        searchDocsClasses s terms pkg ty limit
      else []
    let memR := if ty = "all" || ty = "method" then searchDocsMembers s terms pkg limit else []
    (sortByRank (docR ++ clsR ++ memR)).take limit

/-! ## Lookup queries (getClass / getMethod / listModules) -/
/-- A class together with its members, the shape getClass returns. -/
structure MemberDetail where
  id : Nat
  name : String
  type : String
  signature : String
  visibility : String
  isStatic : Bool
  isAsync : Bool
  description : String
  params : List ParamInfo
  returns : Option RetInfo
  decorators : List String
  exampleCode : Option String
deriving Repr, DecidableEq

structure ClassWithMembers where
  id : Nat
  name : String
  package : String
  type : String
  description : String
  extendsClause : Option String
  implementsClause : List String
  decorators : List String
  sourceUrl : String
  members : List MemberDetail
deriving Repr, DecidableEq

/-- getMethod result rows. -/
structure MemberWithDetails where
  id : Nat
  name : String
  type : String
  signature : String
  visibility : String
  isStatic : Bool
  isAsync : Bool
  description : String
  params : List ParamInfo
  returns : Option RetInfo
  decorators : List String
  exampleCode : Option String
  className : String
  package : String
  sourceUrl : String
deriving Repr, DecidableEq

/-- Strings of a parsed JSON array; interface model of the unchecked
    safeJsonParse<string[]> cast, exercised only on well-formed data. -/
def jsonToStrArr : Json → List String
  | .arr xs => xs.filterMap fun x => match x with | .str s => some s | _ => none
  | _ => []

/-- safeJsonParse with string[] result: falsy value or failed parse gives
    the [] default. -/
def safeParseStrArr (v : String) : List String :=
  if v = "" then []
  else match jsonParseTop v with
    | some j => jsonToStrArr j
    | none => []

/-- Field lookup in a parsed JSON object. -/
def jsonField (fs : List (String × Json)) (k : String) : Option Json :=
  (fs.find? fun f => f.1 = k).map fun f => f.2

/-- String field with empty default. -/
def jsonStrField (fs : List (String × Json)) (k : String) : String :=
  match jsonField fs k with
  | some (.str s) => s
  | _ => ""

/-- Boolean field with false default. -/
def jsonBoolField (fs : List (String × Json)) (k : String) : Bool :=
  match jsonField fs k with
  | some (.bool b) => b
  | _ => false

/-- One parameter from its JSON image. -/
def jsonToParam (j : Json) : ParamInfo :=
  match j with
  | .obj fs =>
    { name := jsonStrField fs "name"
      type := jsonStrField fs "type"
      description := jsonStrField fs "description"
      optional := jsonBoolField fs "optional" }
  | _ => { name := "", type := "", description := "", optional := false }

/-- safeJsonParse with ParamInfo[] result. -/
def safeParseParams (v : String) : List ParamInfo :=
  if v = "" then []
  else match jsonParseTop v with
    | some (.arr xs) => xs.map jsonToParam
    | _ => []

/-- m.returns ? safeJsonParse(m.returns, null) : null. -/
def safeParseRet (v : Option String) : Option RetInfo :=
  match v with
  | none => none
  | some s =>
    if s = "" then none
    else match jsonParseTop s with
      | some (.obj fs) =>
        some { type := jsonStrField fs "type", description := jsonStrField fs "description" }
      | _ => none

/-- Detail view of a member row as getClass builds it. -/
def memberRowToDetail (m : MemberRow) : MemberDetail :=
  { id := m.id
    name := m.name
    type := m.type
    signature := m.signature
    visibility := if m.visibility = "" then "public" else m.visibility
    isStatic := m.is_static ≠ 0
    isAsync := m.is_async ≠ 0
    description := m.description
    params := safeParseParams m.params
    returns := safeParseRet m.returns
    decorators := safeParseStrArr m.decorators
    exampleCode := m.example_code }

/-- The (? IS NULL OR package = ?) filter built from pkg || null: the empty
    string is falsy in JS and disables the filter exactly like undefined. -/
def normPkg (pkg : Option String) : Option String :=
  match pkg with
  | some p => if p = "" then none else some p
  | none => none

/-- Row condition of getClass. -/
def classMatch (name : String) (pf : Option String) (c : ClassRow) : Bool :=
  c.name = name && (match pf with | none => true | some p => c.package = p)

/-- Result record getClass builds from the matching row: parsed JSON
    columns plus the members owned by that row. -/
def classRowToCW (s : Store) (cls : ClassRow) : ClassWithMembers :=
  { id := cls.id
    name := cls.name
    package := cls.package
    type := cls.type
    description := cls.description
    extendsClause := cls.extends_clause
    implementsClause := safeParseStrArr cls.implements_clause
    decorators := safeParseStrArr cls.decorators
    sourceUrl := cls.source_url
    members := (s.members.filter fun m => m.class_id = cls.id).map memberRowToDetail }

/-- Embedding of getClass: first matching row in table order, with its
    members. -/
def getClass (s : Store) (name : String) (pkg : Option String) :
    Option ClassWithMembers :=
  let pf := normPkg pkg
  match (s.classes.filter (classMatch name pf)).head? with
  | none => none
  | some cls => some (classRowToCW s cls)

/-- JS String.prototype.split with the one-character separator '.':
    "a.b.c" gives ["a","b","c"], "" gives [""], "a." gives ["a",""]. -/
def splitOnDot : List Char → List (List Char)
  | [] => [[]]
  | c :: t =>
    if c = '.' then [] :: splitOnDot t
    else
      match splitOnDot t with
      | [] => [[c]]
      | h :: r => (c :: h) :: r

/-- First two fields of methodName.split('.', 2); the single-field case is
    unreachable because the caller checked the name contains a dot. -/
def splitDot2 (s : String) : String × String :=
  match splitOnDot s.data with
  | [] => ("", "")
  | [a] => (String.mk a, "")
  | a :: b :: _ => (String.mk a, String.mk b)

/-- Row condition of getMethod's joined query. -/
def methodMatch (mName : String) (cName pf : Option String)
    (mc : MemberRow × ClassRow) : Bool :=
  mc.1.name = mName &&
    (match cName with | none => true | some cn => mc.2.name = cn) &&
    (match pf with | none => true | some p => mc.2.package = p)

/-- getMethod result row from a joined pair. -/
def joinedToDetails (mc : MemberRow × ClassRow) : MemberWithDetails :=
  { id := mc.1.id
    name := mc.1.name
    type := mc.1.type
    signature := mc.1.signature
    visibility := if mc.1.visibility = "" then "public" else mc.1.visibility
    isStatic := mc.1.is_static ≠ 0
    isAsync := mc.1.is_async ≠ 0
    description := mc.1.description
    params := safeParseParams mc.1.params
    returns := safeParseRet mc.1.returns
    decorators := safeParseStrArr mc.1.decorators
    exampleCode := mc.1.example_code
    className := mc.2.name
    package := mc.2.package
    sourceUrl := mc.2.source_url }

/-- Embedding of getMethod: split a dotted name into declaring class and
    member name, then filter the join. -/
def getMethod (s : Store) (methodName : String) (pkg : Option String) :
    List MemberWithDetails :=
  let parts :=
    if containsSub methodName (".") then
      (some (splitDot2 methodName).1, (splitDot2 methodName).2)
    else (none, methodName)
  let pf := normPkg pkg
  ((memberJoin s).filter (methodMatch parts.2 parts.1 pf)).map joinedToDetails

/-- listModules result rows. -/
structure ModRow where
  name : String
  package : String
  type : String
  description : String
deriving Repr, DecidableEq

/-- ORDER BY package, type, name key comparison. -/
def modLE (a b : ModRow) : Bool :=
  if a.package ≠ b.package then decide (a.package < b.package)
  else if a.type ≠ b.type then decide (a.type < b.type)
  else decide (a.name ≤ b.name)

/-- Stable insertion for the module ordering. -/
def insertMod (r : ModRow) : List ModRow → List ModRow
  | [] => [r]
  | x :: xs => if modLE x r then x :: insertMod r xs else r :: x :: xs

/-- Stable sort realizing ORDER BY package, type, name. -/
def sortMods (l : List ModRow) : List ModRow :=
  l.foldl (fun acc r => insertMod r acc) []

/-- Embedding of listModules. -/
def listModules (s : Store) (pkg ty : String) : List ModRow :=
  sortMods
    ((s.classes.filter fun c =>
        (pkg = "all" || c.package = pkg) && (ty = "all" || c.type = ty)).map fun c =>
      { name := c.name, package := c.package, type := c.type, description := c.description })

/-! ## Tool layer (src/tools/search.ts, get-class.ts, get-method.ts,
    list-modules.ts).  Each tool reads the index status first and answers
    with fixed text while the index is building or after a failed build. -/
inductive StatusKind where
  | ready
  | building
  | error
deriving Repr, DecidableEq

/-- Observable index status (getIndexStatus in src/index.ts). -/
structure IndexStatus where
  status : StatusKind
  error : Option String
deriving Repr, DecidableEq

/-- A tool response is one text block. -/
structure ToolResponse where
  text : String
deriving Repr, DecidableEq

/-- The building indicator every tool returns while the index is building. -/
def buildingText : String :=
  "Index is building (~60s on first run). Please wait and try again."

/-- The failed-build indicator (a null error renders as the string null in
    the JS template literal). -/
def errorText (e : Option String) : String :=
  "Index build failed: " ++ e.getD ("null") ++ ". Try running with --rebuild flag."

/-- JS String.prototype.trim on ASCII whitespace. -/
def trimJS (s : String) : String :=
  String.mk (((s.data.dropWhile isWsChar).reverse.dropWhile isWsChar).reverse)

/-- The suffix rendered from a truthy optional package name. -/
def pkgSuffix (pkg : Option String) : String :=
  match pkg with
  | some p => if p = "" then "" else " in package " ++ p
  | none => ""

/-- Math.min(Math.max(limit, 1), 20) from searchGalachainDocs. -/
def clampLimit (l : Int) : Nat := (min (max l 1) 20).toNat

structure SearchArgs where
  query : String
  package : Option String
  type : Option String
  limit : Option Int
deriving Repr, DecidableEq

/-- One formatted search result (index i is zero-based). -/
def fmtSearchResult (i : Nat) (r : SearchResult) : String :=
  String.intercalate ("\n")
    ["**" ++ toString (i + 1) ++ ". " ++ r.title ++ "**",
     "   Package: " ++ r.package ++ " | Type: " ++ r.type,
     "   " ++ r.snippet,
     "   Source: " ++ r.sourceUrl]

/-- Embedding of searchGalachainDocs. -/
def searchGalachainDocs (st : IndexStatus) (s : Store) (args : SearchArgs) :
    ToolResponse :=
  if st.status = .building then ⟨buildingText⟩
  else if st.status = .error then ⟨errorText st.error⟩
  else
    let query := args.query
    let pkg := args.package.getD ("all")
    let ty := args.type.getD ("all")
    let limit := args.limit.getD 5
    if query = "" ∨ trimJS query = "" then ⟨"Please provide a search query."⟩
    else
      let results := searchDocs s query pkg ty (clampLimit limit)
      if results = [] then
        ⟨"No results found for \"" ++ query ++ "\"" ++
          (if pkg ≠ "all" then " in package " ++ pkg else "") ++
          (if ty ≠ "all" then " of type " ++ ty else "") ++ "."⟩
      else
        ⟨"Found " ++ toString results.length ++ " result(s) for \"" ++ query ++
          "\":\n\n" ++
          String.intercalate ("\n\n")
            (results.enum.map fun p => fmtSearchResult p.1 p.2)⟩

/-- Optionality marker for a parameter bullet. -/
def optMark (b : Bool) : String := if b then "?" else ""

/-- One rendered parameter bullet, shared by the class and method tools. -/
def fmtParamLine (p : ParamInfo) : String :=
  "- `" ++ p.name ++ optMark p.optional ++ "` (" ++ p.type ++ ")" ++
    (if p.description ≠ "" then ": " ++ p.description else "")

/-- Modifier keywords of a member. -/
def memberModifiers (isStatic isAsync : Bool) (visibility : String) : List String :=
  (if isStatic then ["static"] else []) ++
    (if isAsync then ["async"] else []) ++
    (if visibility ≠ "public" then [visibility] else [])

/-- formatMember from get-class.ts. -/
def formatMember (m : MemberDetail) : String :=
  let modifiers := memberModifiers m.isStatic m.isAsync m.visibility
  let decoratorStr :=
    if m.decorators ≠ [] then
      String.intercalate (" ") (m.decorators.map fun d => "@" ++ d) ++ " "
    else ""
  let modifierStr :=
    if modifiers ≠ [] then String.intercalate (" ") modifiers ++ " " else ""
  String.intercalate ("\n")
    (["### " ++ decoratorStr ++ modifierStr ++ m.name] ++
      (if m.signature ≠ "" then ["```typescript", m.signature, "```"] else []) ++
      (if m.description ≠ "" then ["", m.description] else []) ++
      (if m.params ≠ [] then
        ["", "**Parameters:**"] ++ m.params.map fmtParamLine
      else []) ++
      (match m.returns with
       | some r =>
         ["", "**Returns:** `" ++ r.type ++ "`" ++
           (if r.description ≠ "" then " - " ++ r.description else "")]
       | none => []) ++
      (match m.exampleCode with
       | some e =>
         if e ≠ "" then ["", "**Example:**", "```typescript", e, "```"] else []
       | none => []))

structure GetClassArgs where
  name : String
  package : Option String
deriving Repr, DecidableEq

/-- Member sections of the class answer, grouped by member kind in the
    order constructor, properties, accessors, methods. -/
def classMemberLines (ms : List MemberDetail) : List String :=
  if ms ≠ [] then
    (let g := fun (title : String) (sel : List MemberDetail) =>
      if sel ≠ [] then
        ["", "## " ++ title] ++ sel.flatMap fun m => ["", formatMember m]
      else []
    g ("Constructor") (ms.filter fun m => m.type = "constructor") ++
      g ("Properties") (ms.filter fun m => m.type = "property") ++
      g ("Accessors") (ms.filter fun m => m.type = "accessor") ++
      g ("Methods") (ms.filter fun m => m.type = "method"))
  else []

/-- Embedding of getGalachainClass. -/
def getGalachainClass (st : IndexStatus) (s : Store) (args : GetClassArgs) :
    ToolResponse :=
  if st.status = .building then ⟨buildingText⟩
  else if st.status = .error then ⟨errorText st.error⟩
  else if args.name = "" ∨ trimJS args.name = "" then
    ⟨"Please provide a class/interface name."⟩
  else
    match getClass s args.name args.package with
    | none =>
      ⟨"Class/interface \"" ++ args.name ++ "\" not found" ++
        pkgSuffix args.package ++ "."⟩
    | some cls =>
      ⟨String.intercalate ("\n")
        (["# " ++ cls.name, "", "**Package:** " ++ cls.package,
          "**Type:** " ++ cls.type] ++
          (match cls.extendsClause with
           | some e => if e ≠ "" then ["**Extends:** " ++ e] else []
           | none => []) ++
          (if cls.implementsClause ≠ [] then
            ["**Implements:** " ++ String.intercalate (", ") cls.implementsClause]
          else []) ++
          (if cls.decorators ≠ [] then
            ["**Decorators:** " ++
              String.intercalate (", ") (cls.decorators.map fun d => "@" ++ d)]
          else []) ++
          (if cls.description ≠ "" then ["", "## Description", "", cls.description]
          else []) ++
          classMemberLines cls.members ++
          ["", "**Source:** " ++ cls.sourceUrl])⟩

structure GetMethodArgs where
  method_name : String
  package : Option String
deriving Repr, DecidableEq

/-- One formatted method answer from get-method.ts. -/
def fmtMethodDetail (m : MemberWithDetails) : String :=
  let modifiers := memberModifiers m.isStatic m.isAsync m.visibility
  String.intercalate ("\n")
    (["# " ++ m.className ++ "." ++ m.name, "",
      "**Package:** " ++ m.package, "**Class:** " ++ m.className] ++
      (if modifiers ≠ [] then
        ["**Modifiers:** " ++ String.intercalate (", ") modifiers]
      else []) ++
      (if m.decorators ≠ [] then
        ["**Decorators:** " ++
          String.intercalate (", ") (m.decorators.map fun d => "@" ++ d)]
      else []) ++
      (if m.signature ≠ "" then
        ["", "## Signature", "```typescript", m.signature, "```"]
      else []) ++
      (if m.description ≠ "" then ["", "## Description", "", m.description]
      else []) ++
      (if m.params ≠ [] then ["", "## Parameters"] ++ m.params.map fmtParamLine
      else []) ++
      (match m.returns with
       | some r =>
         ["", "## Returns",
          "`" ++ r.type ++ "`" ++
            (if r.description ≠ "" then " - " ++ r.description else "")]
       | none => []) ++
      (match m.exampleCode with
       | some e =>
         if e ≠ "" then ["", "## Example", "```typescript", e, "```"] else []
       | none => []) ++
      ["", "**Source:** " ++ m.sourceUrl])

/-- Embedding of getGalachainMethod. -/
def getGalachainMethod (st : IndexStatus) (s : Store) (args : GetMethodArgs) :
    ToolResponse :=
  if st.status = .building then ⟨buildingText⟩
  else if st.status = .error then ⟨errorText st.error⟩
  else if args.method_name = "" ∨ trimJS args.method_name = "" then
    ⟨"Please provide a method name (e.g., \"submit\" or \"GalaContract.submit\")."⟩
  else
    let results := getMethod s args.method_name args.package
    if results = [] then
      ⟨"Method \"" ++ args.method_name ++ "\" not found" ++
        pkgSuffix args.package ++ "."⟩
    else
      let header :=
        if results.length > 1 then
          "Found " ++ toString results.length ++ " methods matching \"" ++
            args.method_name ++ "\":\n\n---\n\n"
        else ""
      ⟨header ++
        String.intercalate ("\n\n---\n\n") (results.map fmtMethodDetail)⟩

structure ListModulesArgs where
  package : Option String
  type : Option String
deriving Repr, DecidableEq

/-- truncate from list-modules.ts. -/
def truncateStr (s : String) (maxLen : Nat) : String :=
  if s.length ≤ maxLen then s
  else String.mk (s.data.take (maxLen - 3)) ++ "..."

/-- capitalize from list-modules.ts. -/
def capitalizeStr (s : String) : String :=
  match s.data with
  | [] => ""
  | c :: t => String.mk (c.toUpper :: t)

/-- Insertion-ordered grouping, the model of building a JS Map by pushing
    each item onto its key's list. -/
def groupByStr {α : Type} (key : α → String) (l : List α) : List (String × List α) :=
  l.foldl
    (fun acc x =>
      let k := key x
      if acc.any fun p => p.1 = k then
        acc.map fun p => if p.1 = k then (p.1, p.2 ++ [x]) else p
      else acc ++ [(k, [x])])
    []

/-- One type group inside a package section. -/
def fmtTypeGroup (p : String × List ModRow) : List String :=
  ["### " ++ capitalizeStr p.1 ++ "s", ""] ++
    (p.2.map fun item =>
      "- **" ++ item.name ++ "**" ++
        (if item.description ≠ "" then " - " ++ truncateStr item.description 80
         else "")) ++
    [""]

/-- One package section. -/
def fmtPkgGroup (p : String × List ModRow) : List String :=
  ["## @gala-chain/" ++ p.1, ""] ++
    (groupByStr (fun m => m.type) p.2).flatMap fmtTypeGroup

/-- Embedding of listGalachainModules. -/
def listGalachainModules (st : IndexStatus) (s : Store) (args : ListModulesArgs) :
    ToolResponse :=
  if st.status = .building then ⟨buildingText⟩
  else if st.status = .error then ⟨errorText st.error⟩
  else
    let pkg := args.package.getD ("all")
    let ty := args.type.getD ("all")
    let results := listModules s pkg ty
    if results = [] then
      ⟨"No modules found" ++
        (if pkg ≠ "all" then " in package " ++ pkg else "") ++
        (if ty ≠ "all" then " of type " ++ ty else "") ++ "."⟩
    else
      ⟨String.intercalate ("\n")
        (["# GalaChain SDK Modules", "",
          "Found " ++ toString results.length ++ " module(s)" ++
            (if pkg ≠ "all" then " in package " ++ pkg else "") ++
            (if ty ≠ "all" then " of type " ++ ty else "") ++ ".", ""] ++
          (groupByStr (fun m => m.package) results).flatMap fmtPkgGroup)⟩

/-- The empty store, used by several concrete witnesses. -/
def storeEmpty : Store :=
  { docs := [], classes := [], members := []
    nextDocId := 1, nextClassId := 1, nextMemberId := 1 }

/-- Concrete declaration with implementsClause ["A", "B"]. -/
def cinfoAB : ClassInfo :=
  { name := "Foo", package := "chain-api", type := "class", description := ""
    extendsClause := none, implementsClause := ["A", "B"], decorators := []
    members := [], filePath := "p", sourceUrl := "u" }

/-- Two same-named members on two classes, for the C8 witness. -/
def storeC8 : Store :=
  { docs := []
    classes :=
      [{ id := 1, package := "p", name := "Foo", type := "class", description := ""
         extends_clause := none, implements_clause := "[]", decorators := "[]"
         source_url := "", file_path := "", search_text := "" },
       { id := 2, package := "p", name := "Baz", type := "class", description := ""
         extends_clause := none, implements_clause := "[]", decorators := "[]"
         source_url := "", file_path := "", search_text := "" }]
    members :=
      [{ id := 1, class_id := 1, name := "bar", type := "method", signature := ""
         visibility := "public", is_static := 0, is_async := 0, description := ""
         params := "[]", returns := none, decorators := "[]", example_code := none
         search_text := "" },
       { id := 2, class_id := 2, name := "bar", type := "method", signature := ""
         visibility := "public", is_static := 0, is_async := 0, description := ""
         params := "[]", returns := none, decorators := "[]", example_code := none
         search_text := "" }]
    nextDocId := 1, nextClassId := 3, nextMemberId := 3 }

/-- Two same-named class rows with distinct members, for the C10 witness. -/
def dupRow1 : ClassRow :=
  { id := 1, package := "p1", name := "Dup", type := "class", description := ""
    extends_clause := none, implements_clause := "[]", decorators := "[]"
    source_url := "", file_path := "", search_text := "" }

def dupRow2 : ClassRow :=
  { id := 2, package := "p2", name := "Dup", type := "class", description := ""
    extends_clause := none, implements_clause := "[]", decorators := "[]"
    source_url := "", file_path := "", search_text := "" }

def storeC10 : Store :=
  { docs := []
    classes := [dupRow1, dupRow2]
    members :=
      [{ id := 1, class_id := 1, name := "m1", type := "method", signature := ""
         visibility := "public", is_static := 0, is_async := 0, description := ""
         params := "[]", returns := none, decorators := "[]", example_code := none
         search_text := "" },
       { id := 2, class_id := 2, name := "m2", type := "method", signature := ""
         visibility := "public", is_static := 0, is_async := 0, description := ""
         params := "[]", returns := none, decorators := "[]", example_code := none
         search_text := "" }]
    nextDocId := 1, nextClassId := 3, nextMemberId := 3 }

/-! ## Reference parser (src/indexer/parse-typedoc.ts).

    The JS regular expressions are embedded as deterministic scanners.
    Throughout, a scanner that iterates over match start positions carries a
    fuel argument set to one more than the character count at the entry
    point; every step consumes at least one character, so the fuel never
    runs out on the real inputs and exists only to make the recursion
    structural. -/
/-- The backtick character. -/
def btick : Char := Char.ofNat 96

/-- The apostrophe character. -/
def apos : Char := Char.ofNat 39

/-- JS regex dot: any character except a line terminator. -/
def notNl (c : Char) : Bool := c ≠ '\n' && c ≠ '\x0d'

/-- Tail matcher for a regex ending in \s*(.+): the whitespace run is taken
    greedily; if a character follows the run it starts the group, which
    extends to the end of the line; otherwise the engine backtracks into the
    run and the group becomes its last non-terminator character.  Returns
    the group and the rest after the whole match. -/
def dotPlusAfterWsR (cs : List Char) : Option (String × List Char) :=
  let m := cs.takeWhile isWsChar
  let rest := cs.drop m.length
  match rest with
  | _ :: _ =>
    let g := rest.takeWhile notNl
    some (String.mk g, rest.drop g.length)
  | [] =>
    let qs := (List.range m.length).filter fun i =>
      match m.get? i with
      | some c => notNl c
      | none => false
    match qs.getLast? with
    | some q =>
      match m.get? q with
      | some c => some (String.mk [c], cs.drop (q + 1))
      | none => none
    | none => none

/-- Group of \s*(.+) when only the group is needed. -/
def dotPlusAfterWs (cs : List Char) : Option String :=
  (dotPlusAfterWsR cs).map fun p => p.1

/-- Group matcher for [:\s]+(.+) (the Implements label): at least one
    colon-or-whitespace character must be consumed before the group. -/
def colonWsGroup (cs : List Char) : Option String :=
  let m := cs.takeWhile fun c => c = ':' || isWsChar c
  if m = [] then none
  else
    let rest := cs.drop m.length
    match rest with
    | _ :: _ => some (String.mk (rest.takeWhile notNl))
    | [] =>
      let tailCands := (m.drop 1).filter notNl
      match tailCands.getLast? with
      | some c => some (String.mk [c])
      | none => none

/-- Scanner for /(?:Extends|extends)[:\s]+[`\[]?(\w+)[`\]]?/i: at each
    case-insensitive occurrence of the label, a colon/whitespace run, an
    optional opening backtick or bracket, then the captured word run; a
    failing occurrence falls through to the next one. -/
def extendsScan : List Char → Option String
  | [] => none
  | cs@(_ :: t) =>
    (if isPreCI ("extends".data) cs then
      let after := cs.drop 7
      let m := after.takeWhile fun c => c = ':' || isWsChar c
      if m ≠ [] then
        let rest := after.drop m.length
        let rest2 :=
          match rest with
          | c :: r => if c = btick || c = '[' then r else rest
          | [] => rest
        let w := rest2.takeWhile isWordChar
        if w ≠ [] then some (String.mk w) else extendsScan t
      else extendsScan t
    else extendsScan t)

/-- Scanner for /(?:Implements|implements)[:\s]+(.+)/i. -/
def implementsScan : List Char → Option String
  | [] => none
  | cs@(_ :: t) =>
    (if isPreCI ("implements".data) cs then
      match colonWsGroup (cs.drop 10) with
      | some g => some g
      | none => implementsScan t
    else implementsScan t)

/-- JS split on a single-character separator (used for ',' and newline). -/
def splitOnChar (sep : Char) : List Char → List (List Char)
  | [] => [[]]
  | c :: t =>
    if c = sep then [] :: splitOnChar sep t
    else
      match splitOnChar sep t with
      | [] => [[c]]
      | h :: r => (c :: h) :: r

/-- section.split('\n') as a list of strings. -/
def splitLines (s : String) : List String :=
  (splitOnChar '\n' s.data).map String.mk

/-- The replace(/[`\[\]]/g, '') cleanup applied to implements entries. -/
def stripTicksBrackets (s : String) : String :=
  String.mk (s.data.filter fun c => c ≠ btick && c ≠ '[' && c ≠ ']')

/-- Implements clause: label group split on commas, entries trimmed,
    backticks and brackets removed, empties dropped. -/
def implementsParse (sec : String) : List String :=
  match implementsScan sec.data with
  | some g =>
    ((splitOnChar ',' g.data).map fun p =>
      stripTicksBrackets (trimJS (String.mk p))).filter fun s => s ≠ ""
  | none => []

/-- Scanner for the global /@(\w+)/g: every at-sign followed by a word run. -/
def decoScan (fuel : Nat) : List Char → List String
  | [] => []
  | c :: t =>
    match fuel with
    | 0 => []
    | fuel + 1 =>
      if c = '@' then
        let w := t.takeWhile isWordChar
        if w ≠ [] then String.mk w :: decoScan fuel (t.drop w.length)
        else decoScan fuel t
      else decoScan fuel t

/-- First-seen-order de-duplication (the includes check before each push). -/
def dedupFirst (l : List String) : List String :=
  l.foldl (fun acc x => if x ∈ acc then acc else acc ++ [x]) []

/-- extractDecorators from parse-typedoc.ts. -/
def extractDecorators (sec : String) : List String :=
  dedupFirst (decoScan (sec.data.length + 1) sec.data)

/-- One pass of replace(/\[([^\]]+)\]\(([^)]+)\)/... — markdown links become
    their text.  On a failed match at an opening bracket the engine moves on
    by one character, so the bracket is copied verbatim. -/
def replaceLinks (fuel : Nat) : List Char → List Char
  | [] => []
  | c :: t =>
    match fuel with
    | 0 => c :: t
    | fuel + 1 =>
      if c = '[' then
        let inner := t.takeWhile fun x => x ≠ ']'
        (match t.drop inner.length with
         | ']' :: '(' :: u =>
           let url := u.takeWhile fun x => x ≠ ')'
           (match u.drop url.length with
            | ')' :: v =>
              if inner ≠ [] && url ≠ [] then inner ++ replaceLinks fuel v
              else c :: replaceLinks fuel t
            | _ => c :: replaceLinks fuel t)
         | _ => c :: replaceLinks fuel t)
      else c :: replaceLinks fuel t

/-- One pass of replace for a single-delimiter markup pair such as
    `code` or *italic*: delimiter, one-or-more non-delimiter characters,
    delimiter. -/
def replaceWrapped (d : Char) (fuel : Nat) : List Char → List Char
  | [] => []
  | c :: t =>
    match fuel with
    | 0 => c :: t
    | fuel + 1 =>
      if c = d then
        let inner := t.takeWhile fun x => x ≠ d
        (match t.drop inner.length with
         | e :: v =>
           if e = d && inner ≠ [] then inner ++ replaceWrapped d fuel v
           else c :: replaceWrapped d fuel t
         | [] => c :: replaceWrapped d fuel t)
      else c :: replaceWrapped d fuel t

/-- Replace for the two-character ** bold delimiter. -/
def replaceBold (fuel : Nat) : List Char → List Char
  | [] => []
  | c :: t =>
    match fuel with
    | 0 => c :: t
    | fuel + 1 =>
      if c = '*' then
        (match t with
         | c2 :: t2 =>
           if c2 = '*' then
             let inner := t2.takeWhile fun x => x ≠ '*'
             (match t2.drop inner.length with
              | '*' :: '*' :: v =>
                if inner ≠ [] then inner ++ replaceBold fuel v
                else c :: replaceBold fuel t
              | _ => c :: replaceBold fuel t)
           else c :: replaceBold fuel t
         | [] => [c])
      else c :: replaceBold fuel t

/-- cleanDescription from parse-typedoc.ts: strip links, inline code, bold
    and italic markup, then trim. -/
def cleanDescription (text : String) : String :=
  let a := replaceLinks (text.data.length + 1) text.data
  let b := replaceWrapped btick (a.length + 1) a
  let c := replaceBold (b.length + 1) b
  let d := replaceWrapped '*' (c.length + 1) c
  trimJS (String.mk d)

/-! ### Fenced code block scanners -/
/-- Suffixes after a match of \s*\n, greedy (latest newline) first: the
    whitespace run is scanned for newline positions and the continuation is
    tried after each, latest first. -/
def nlCandidates (cs : List Char) : List (List Char) :=
  let m := cs.takeWhile isWsChar
  (((List.range m.length).filter fun i => m.get? i = some '\n').reverse).map
    fun i => cs.drop (i + 1)

/-- Body matcher for ([^`]+)\n```: the maximal non-backtick run must end
    with a newline and be followed by the closing fence; the group excludes
    that newline.  Returns the group and the rest after the fence. -/
def fenceBody (cs : List Char) : Option (List Char × List Char) :=
  let r := cs.takeWhile fun c => c ≠ btick
  if 2 ≤ r.length && r.getLast? = some '\n' &&
      ("```".data).isPrefixOf (cs.drop r.length) then
    some (r.dropLast, cs.drop (r.length + 3))
  else none

/-- Language-tag alternatives of (?:typescript|ts)?, in preference order. -/
def langAlts2 : List (List Char) := ["typescript".data, "ts".data, []]

/-- Language-tag alternatives of (?:typescript|ts|javascript|js)?. -/
def langAlts4 : List (List Char) :=
  ["typescript".data, "ts".data, "javascript".data, "js".data, []]

/-- Attempt of /```(?:typescript|ts)?\s*\n([^`]+)\n```/ at one position. -/
def tryFenceAt (cs : List Char) : Option (List Char) :=
  if ("```".data).isPrefixOf cs then
    let rest := cs.drop 3
    langAlts2.findSome? fun lang =>
      if lang.isPrefixOf rest then
        (nlCandidates (rest.drop lang.length)).findSome? fun body =>
          (fenceBody body).map fun p => p.1
      else none
  else none

/-- First match of the signature code fence regex anywhere in the text. -/
def sigBlockScan (fuel : Nat) : List Char → Option (List Char)
  | [] => none
  | cs@(_ :: t) =>
    match fuel with
    | 0 => none
    | fuel + 1 =>
      match tryFenceAt cs with
      | some g => some g
      | none => sigBlockScan fuel t

/-- signature = sigMatch ? sigMatch[1].trim().split('\n')[0] : ''. -/
def sigOfSection (sec : String) : String :=
  match sigBlockScan (sec.data.length + 1) sec.data with
  | some g => String.mk ((trimJS (String.mk g)).data.takeWhile fun c => c ≠ '\n')
  | none => ""

/-! ### parseParams (src/indexer/parse-typedoc.ts lines 253-296) and its
    splitParams helper (lines 298-321) -/
/-- First match of /\(([^)]*)\)/: the text between the first opening paren
    and the next closing paren after it. -/
def firstParenGroup (cs : List Char) : Option (List Char) :=
  match cs.dropWhile fun c => c ≠ '(' with
  | '(' :: rest =>
    let g := rest.takeWhile fun c => c ≠ ')'
    if g.length < rest.length then some g else none
  | _ => none

/-- Opening nesting characters of splitParams. -/
def openBr (c : Char) : Bool := c = '<' || c = '(' || c = '{' || c = '['

/-- Closing nesting characters of splitParams. -/
def closeBr (c : Char) : Bool := c = '>' || c = ')' || c = '}' || c = ']'

/-- The character loop of splitParams: brackets adjust the depth, a comma
    at depth zero closes the current (trimmed) part unconditionally, and the
    final part is kept only when non-empty after trimming. -/
def splitGo : List Char → Int → List Char → List String
  | [], _, cur =>
    let last := trimJS (String.mk cur.reverse)
    if last ≠ "" then [last] else []
  | c :: t, d, cur =>
    if openBr c then splitGo t (d + 1) (c :: cur)
    else if closeBr c then splitGo t (d - 1) (c :: cur)
    else if c = ',' && d = 0 then
      trimJS (String.mk cur.reverse) :: splitGo t d []
    else splitGo t d (c :: cur)

/-- splitParams from parse-typedoc.ts. -/
def splitParams (paramStr : String) : List String :=
  splitGo paramStr.data 0 []

/-- First match of /(\w+)(\?)?:\s*(.+)/ over a parameter part: the first
    maximal word run followed by an optional question mark, a colon, and
    the rest-of-line group. -/
def paramMatchScan : List Char → Option (String × Bool × String)
  | [] => none
  | c :: t =>
    if isWordChar c then
      let w := c :: t.takeWhile isWordChar
      let rest := t.drop (t.takeWhile isWordChar).length
      let opt := match rest with
        | '?' :: _ => true
        | _ => false
      let rest2 := if opt then rest.drop 1 else rest
      (match rest2 with
       | ':' :: r3 =>
         (match dotPlusAfterWs r3 with
          | some g => some (String.mk w, opt, g)
          | none => paramMatchScan t)
       | _ => paramMatchScan t)
    else paramMatchScan t

/-- Parameters recovered from the signature's parenthesized argument list:
    top-level comma split, then the name[?]: Type shape per part; parts not
    of that shape yield no entry. -/
def sigParams (signature : String) : List ParamInfo :=
  match firstParenGroup signature.data with
  | some g =>
    if trimJS (String.mk g) ≠ "" then
      (splitParams (String.mk g)).filterMap fun part =>
        (paramMatchScan part.data).map fun r =>
          { name := r.1, type := trimJS r.2.2, description := "", optional := r.2.1 }
    else []
  | none => []

/-- One match of the bullet pattern
    [•\-\*]\s*[`']?(\w+)[`']?(?:\s*\(([^)]+)\))?(?:\s*[-–:]\s*(.+))?. -/
structure BulletMatch where
  name : String
  ty : Option String
  desc : Option String
  full : String
deriving Repr, DecidableEq

/-- Attempt of the bullet pattern at one position; returns the match and
    the rest of the text after it. -/
def tryBulletAt (cs : List Char) : Option (BulletMatch × List Char) :=
  match cs with
  | [] => none
  | c :: t =>
    if c = '•' || c = '-' || c = '*' then
      let r1 := t.drop (t.takeWhile isWsChar).length
      (match r1 with
       | [] => none
       | d :: r =>
         let r2 := if d = btick || d = apos then r else r1
         let w := r2.takeWhile isWordChar
         if w = [] then none
         else
           let r3 := r2.drop w.length
           let r4 :=
             match r3 with
             | e :: rr => if e = btick || e = apos then rr else r3
             | [] => r3
           let tyStep : Option String × List Char :=
             (match r4.drop (r4.takeWhile isWsChar).length with
              | '(' :: rr =>
                let g := rr.takeWhile fun x => x ≠ ')'
                if g ≠ [] && g.length < rr.length then
                  (some (String.mk g), rr.drop (g.length + 1))
                else (none, r4)
              | _ => (none, r4))
           let r5 := tyStep.2
           let descStep : Option String × List Char :=
             (match r5.drop (r5.takeWhile isWsChar).length with
              | e :: rr =>
                if e = '-' || e = '–' || e = ':' then
                  (match dotPlusAfterWsR rr with
                   | some (g, rest) => (some g, rest)
                   | none => (none, r5))
                else (none, r5)
              | [] => (none, r5))
           let r6 := descStep.2
           some
             ({ name := String.mk w
                ty := tyStep.1
                desc := descStep.1
                full := String.mk (cs.take (cs.length - r6.length)) }, r6))
    else none

/-- All matches of the global bullet pattern, in order. -/
def bulletScan (fuel : Nat) : List Char → List BulletMatch
  | [] => []
  | cs@(_ :: t) =>
    match fuel with
    | 0 => []
    | fuel + 1 =>
      match tryBulletAt cs with
      | some (bm, rest) => bm :: bulletScan fuel rest
      | none => bulletScan fuel t

/-- Update of the first parameter whose name matches the bullet: a
    bullet-supplied type or description replaces the stored one; omitted
    fields keep their values. -/
def updateFirst : List ParamInfo → BulletMatch → List ParamInfo
  | [], _ => []
  | p :: ps, bm =>
    if p.name = bm.name then
      { p with
        type := bm.ty.getD p.type
        description :=
          match bm.desc with
          | some d => trimJS d
          | none => p.description } :: ps
    else p :: updateFirst ps bm

/-- One step of the enrichment loop of parseParams: update an existing
    parameter, or append a new one when the bullet carries a type or a
    description. -/
def enrichStep (ps : List ParamInfo) (bm : BulletMatch) : List ParamInfo :=
  if ps.any fun p => p.name = bm.name then updateFirst ps bm
  else if bm.ty.isSome || bm.desc.isSome then
    ps ++
      [{ name := bm.name
         type := bm.ty.getD ("unknown")
         description := (bm.desc.map trimJS).getD ("")
         optional :=
           containsSub bm.full ("optional") || containsSub bm.full ("?") }]
  else ps

/-- parseParams from parse-typedoc.ts: signature-derived parameters
    enriched by every bullet match found in the member section. -/
def parseParams (sec signature : String) : List ParamInfo :=
  (bulletScan (sec.data.length + 1) sec.data).foldl enrichStep
    (sigParams signature)

/-! ### Member section scanners -/
/-- Group tail of the description regex after the word run: \s*\n+ followed
    by ([^#`\n][^\n]+).  The candidate group-start positions are the ends of
    the maximal newline runs inside the leading whitespace, latest first. -/
def descTail (cs : List Char) : Option (List Char) :=
  let m := cs.takeWhile isWsChar
  let ends := (List.range m.length).filter fun i =>
    m.get? i = some '\n' && cs.get? (i + 1) ≠ some '\n'
  (ends.reverse).findSome? fun i =>
    match cs.drop (i + 1) with
    | c1 :: rest =>
      if c1 ≠ '#' && c1 ≠ btick then
        let tail := rest.takeWhile fun c => c ≠ '\n'
        if tail ≠ [] then some (c1 :: tail) else none
      else none
    | [] => none

/-- Attempt of /#{4,5}\s+\w+\s*\n+([^#`\n][^\n]+)/ at one position: a hash
    run of exactly four or five, a whitespace run, a word run, then the
    group on a following line. -/
def tryDescAt (cs : List Char) : Option (List Char) :=
  let h := cs.takeWhile fun c => c = '#'
  if h.length = 4 || h.length = 5 then
    let rest := cs.drop h.length
    let w1 := rest.takeWhile isWsChar
    if w1 ≠ [] then
      let rest2 := rest.drop w1.length
      let r := rest2.takeWhile isWordChar
      if r ≠ [] then descTail (rest2.drop r.length) else none
    else none
  else none

/-- First match of the member description regex anywhere. -/
def descScan (fuel : Nat) : List Char → Option (List Char)
  | [] => none
  | cs@(_ :: t) =>
    match fuel with
    | 0 => none
    | fuel + 1 =>
      match tryDescAt cs with
      | some g => some g
      | none => descScan fuel t

/-- Optional dash description (?:\s*[-–]\s*(.+))? of the Returns label. -/
def dashDesc (cs : List Char) : Option String :=
  let w := cs.takeWhile isWsChar
  match cs.drop w.length with
  | c :: rest => if c = '-' || c = '–' then dotPlusAfterWs rest else none
  | [] => none

/-- Continuation of the Returns regex after the label:
    [:\s]+[`\[]?([^`\]\n]+)[`\]]?(?:\s*[-–]\s*(.+))?.  The colon/whitespace
    run backtracks from its maximal extent; at each stop an optional opening
    backtick/bracket is tried consumed-first, the group is the maximal run
    free of backtick, closing bracket and newline, an optional closer is
    consumed, and the dash description is attempted. -/
def retAfterLabel (cs : List Char) : Option (String × Option String) :=
  let m := cs.takeWhile fun c => c = ':' || isWsChar c
  let attempt := fun (r2 : List Char) =>
    let g := r2.takeWhile fun c => c ≠ btick && c ≠ ']' && c ≠ '\n'
    if g = [] then none
    else
      let after := r2.drop g.length
      let after2 :=
        match after with
        | c :: r => if c = btick || c = ']' then r else after
        | [] => after
      some (String.mk g, dashDesc after2)
  (((List.range m.length).reverse).map fun i => i + 1).findSome? fun k =>
    let rest := cs.drop k
    match rest with
    | c :: r =>
      if c = btick || c = '[' then
        match attempt r with
        | some x => some x
        | none => attempt rest
      else attempt rest
    | [] => none

/-- First match of /(?:Returns?|return type)[:\s]+.../i: at each position
    the label alternatives returns, return, return type are tried in the
    regex's preference order. -/
def returnsScan (fuel : Nat) : List Char → Option (String × Option String)
  | [] => none
  | cs@(_ :: t) =>
    match fuel with
    | 0 => none
    | fuel + 1 =>
      let attempts : List (Option (String × Option String)) :=
        [if isPreCI ("returns".data) cs then retAfterLabel (cs.drop 7) else none,
         if isPreCI ("return".data) cs then retAfterLabel (cs.drop 6) else none,
         if isPreCI ("return type".data) cs then retAfterLabel (cs.drop 11)
         else none]
      match attempts.findSome? id with
      | some x => some x
      | none => returnsScan fuel t

/-- Attempt of the extractCodeExample regex at one position:
    [Ee]xample[s]?[:\s]*\n then a fenced block with an optional
    typescript/ts/javascript/js tag. -/
def tryExampleAt (cs : List Char) : Option (List Char) :=
  match cs with
  | c :: t =>
    if (c = 'E' || c = 'e') && ("xample".data).isPrefixOf t then
      let rest := t.drop 6
      let alts :=
        match rest with
        | 's' :: r => [('s' :: r).drop 1, rest]
        | _ => [rest]
      alts.findSome? fun r0 =>
        let m := r0.takeWhile fun x => x = ':' || isWsChar x
        (((List.range m.length).filter fun i => m.get? i = some '\n').reverse).findSome?
          fun i =>
            let afterNl := r0.drop (i + 1)
            if ("```".data).isPrefixOf afterNl then
              let rest2 := afterNl.drop 3
              langAlts4.findSome? fun lang =>
                if lang.isPrefixOf rest2 then
                  (nlCandidates (rest2.drop lang.length)).findSome? fun body =>
                    (fenceBody body).map fun p => p.1
                else none
            else none
    else none
  | [] => none

/-- First match of the example regex anywhere. -/
def exampleScan (fuel : Nat) : List Char → Option (List Char)
  | [] => none
  | cs@(_ :: t) =>
    match fuel with
    | 0 => none
    | fuel + 1 =>
      match tryExampleAt cs with
      | some g => some g
      | none => exampleScan fuel t

/-- extractCodeExample from parse-typedoc.ts. -/
def extractCodeExample (sec : String) : Option String :=
  (exampleScan (sec.data.length + 1) sec.data).map fun g =>
    trimJS (String.mk g)

/-- parseMemberSection from parse-typedoc.ts. -/
def parseMemberSection (name : String) (sec : String) : MemberInfo :=
  let signature := sigOfSection sec
  let lowerSec := lowerStr sec
  let ty :=
    if name = "constructor" || name = "new" then "constructor"
    else if !containsSub signature ("(") && !containsSub lowerSec ("method") then
      "property"
    else if containsSub sec ("get ") || containsSub sec ("set ") then "accessor"
    else "method"
  let description :=
    match descScan (sec.data.length + 1) sec.data with
    | some g => cleanDescription (String.mk g)
    | none => ""
  let visibility :=
    if containsSub signature ("protected ") || containsSub sec ("protected") then
      "protected"
    else if containsSub signature ("private ") || containsSub sec ("private") then
      "private"
    else "public"
  { name := name
    type := ty
    signature := signature
    visibility := visibility
    isStatic := containsSub signature ("static ") || containsSub sec ("static")
    isAsync := containsSub signature ("async ") || containsSub signature ("Promise<")
    description := description
    params := parseParams sec signature
    returns := (returnsScan (sec.data.length + 1) sec.data).map fun r =>
      { type := trimJS r.1, description := r.2.getD ("") }
    decorators := extractDecorators sec
    exampleCode := extractCodeExample sec }

/-- First match of /(\w+)\s*\(/: the first maximal word run followed by
    optional whitespace and an opening paren. -/
def sigNameScan : List Char → Option String
  | [] => none
  | c :: t =>
    if isWordChar c then
      let w := c :: t.takeWhile isWordChar
      let rest := (t.drop (t.takeWhile isWordChar).length).dropWhile isWsChar
      (match rest with
       | '(' :: _ => some (String.mk w)
       | _ => sigNameScan t)
    else sigNameScan t

/-- Lazy group of /\):\s*(.+?)(?:\s*\{|$)/ after the "):" label: greedy
    whitespace first, then the shortest non-empty line-bound group whose
    continuation is either whitespace-then-brace or the end of the string. -/
def lazyRetGroup (cs : List Char) : Option String :=
  let w := cs.takeWhile isWsChar
  (((List.range (w.length + 1)).reverse)).findSome? fun k =>
    let rest := cs.drop k
    (List.range rest.length).findSome? fun glen0 =>
      let glen := glen0 + 1
      let g := rest.take glen
      if g.all notNl then
        let after := rest.drop glen
        if after = [] then some (String.mk g)
        else
          let w2 := after.takeWhile isWsChar
          (match after.drop w2.length with
           | '{' :: _ => some (String.mk g)
           | _ => none)
      else none

/-- First match of the signature return-type regex. -/
def retSigScan : List Char → Option String
  | [] => none
  | cs@(_ :: t) =>
    (match cs with
     | ')' :: ':' :: r =>
       (match lazyRetGroup r with
        | some g => some g
        | none => retSigScan t)
     | _ => retSigScan t)

/-- parseMemberFromSignature from parse-typedoc.ts. -/
def parseMemberFromSignature (signature context : String) : Option MemberInfo :=
  match sigNameScan signature.data with
  | none => none
  | some name =>
    some
      { name := name
        type := if name = "constructor" then "constructor" else "method"
        signature := signature
        visibility := "public"
        isStatic := containsSub signature ("static ")
        isAsync :=
          containsSub signature ("async ") || containsSub signature ("Promise<")
        description := ""
        params := parseParams context signature
        returns := (retSigScan signature.data).map fun g =>
          { type := trimJS g, description := "" }
        decorators := extractDecorators context
        exampleCode := none }

/-! ### parseMembers -/
/-- Attempt of /^#{4,5}\s+(\w+)/ at a line start: a hash run of exactly
    four or five, a whitespace run, then the captured word run; returns the
    name and the length of the whole match. -/
def tryMemberHead (cs : List Char) : Option (String × Nat) :=
  let h := cs.takeWhile fun c => c = '#'
  if h.length = 4 || h.length = 5 then
    let rest := cs.drop h.length
    let w := rest.takeWhile isWsChar
    if w ≠ [] then
      let name := (rest.drop w.length).takeWhile isWordChar
      if name ≠ [] then
        some (String.mk name, h.length + w.length + name.length)
      else none
    else none
  else none

/-- All matches of the global member-heading regex: the scan resumes right
    after each match, and the multiline anchor holds at the string start and
    after every newline. -/
def memberHeadScan (fuel : Nat) : List Char → Bool → List (String × Nat × List Char)
  | [], _ => []
  | cs@(c :: t), lineStart =>
    match fuel with
    | 0 => []
    | fuel + 1 =>
      if lineStart then
        match tryMemberHead cs with
        | some (nm, len) => (nm, len, cs) :: memberHeadScan fuel (cs.drop len) false
        | none => memberHeadScan fuel t (c = '\n')
      else memberHeadScan fuel t (c = '\n')

/-- Does /^#{1,5}\s/ match at this position (assumed a line start)? -/
def tryHeading15 (cs : List Char) : Bool :=
  let h := cs.takeWhile fun c => c = '#'
  1 ≤ h.length && h.length ≤ 5 &&
    (match cs.drop h.length with
     | c :: _ => isWsChar c
     | [] => false)

/-- search(/^#{1,5}\s/m) over a slice whose own start counts as a line
    start: index of the first heading, if any. -/
def searchHeading15 (fuel : Nat) : List Char → Bool → Option Nat
  | [], _ => none
  | cs@(c :: t), lineStart =>
    match fuel with
    | 0 => none
    | fuel + 1 =>
      if lineStart && tryHeading15 cs then some 0
      else (searchHeading15 fuel t (c = '\n')).map fun i => i + 1

/-- The member block of one heading match: from the match to the next
    heading of depth at most five, or to the end when the search finds
    nothing or an immediate heading (the code tests search > 0). -/
def memberSectionOf (fromMatch : List Char) (matchLen : Nat) : List Char :=
  match searchHeading15 (fromMatch.length + 1) (fromMatch.drop matchLen) true with
  | some idx => if 0 < idx then fromMatch.take (matchLen + idx) else fromMatch
  | none => fromMatch

/-- Structural labels skipped by the primary member strategy. -/
def skipMemberNames : List String :=
  ["Constructor", "Methods", "Properties", "Accessors", "Parameters", "Returns"]

/-- Keyword alternatives of the signature-pattern modifier loop. -/
def modifierKws : List String :=
  ["public", "private", "protected", "static", "async"]

/-- Consume one (?:keyword\s+) modifier repetition. -/
def tryOneModifier (cs : List Char) : Option (List Char) :=
  modifierKws.findSome? fun kw =>
    if kw.data.isPrefixOf cs then
      let r := cs.drop kw.length
      let w := r.takeWhile isWsChar
      if w ≠ [] then some (r.drop w.length) else none
    else none

/-- Suffixes after zero, one, two, ... modifier repetitions in order. -/
def modSteps (fuel : Nat) (cs : List Char) : List (List Char) :=
  match fuel with
  | 0 => [cs]
  | fuel + 1 =>
    match tryOneModifier cs with
    | some rest => cs :: modSteps fuel rest
    | none => [cs]

/-- Body of the signature pattern after the fence newline:
    ((?:mod\s+)*\w+\s*\([^)]*\)[^`]*)\n``` — greedy over the modifier
    repetitions.  Returns the captured group and the rest after the match. -/
def sigBodyMatch (body : List Char) : Option (String × List Char) :=
  ((modSteps (body.length + 1) body).reverse).findSome? fun s =>
    let w := s.takeWhile isWordChar
    if w = [] then none
    else
      let r1 := (s.drop w.length).dropWhile isWsChar
      match r1 with
      | '(' :: r2 =>
        let inner := r2.takeWhile fun c => c ≠ ')'
        if inner.length < r2.length then
          let r3 := r2.drop (inner.length + 1)
          let tailRun := r3.takeWhile fun c => c ≠ btick
          if tailRun.getLast? = some '\n' &&
              ("```".data).isPrefixOf (r3.drop tailRun.length) then
            let consumedToR3 := body.length - r3.length
            some
              (String.mk (body.take (consumedToR3 + tailRun.length - 1)),
               r3.drop (tailRun.length + 3))
          else none
        else none
      | _ => none

/-- Attempt of the global signature pattern at one position. -/
def trySigPatAt (cs : List Char) : Option (String × List Char) :=
  if ("```".data).isPrefixOf cs then
    let rest := cs.drop 3
    langAlts2.findSome? fun lang =>
      if lang.isPrefixOf rest then
        (nlCandidates (rest.drop lang.length)).findSome? sigBodyMatch
      else none
  else none

/-- All matches of the signature pattern, each with the suffix starting at
    its match position (section.slice(match.index)). -/
def sigPatScan (fuel : Nat) : List Char → List (String × List Char)
  | [] => []
  | cs@(_ :: t) =>
    match fuel with
    | 0 => []
    | fuel + 1 =>
      match trySigPatAt cs with
      | some (g, restAfter) => (g, cs) :: sigPatScan fuel restAfter
      | none => sigPatScan fuel t

/-- parseMembers from parse-typedoc.ts: the primary heading strategy, then
    the supplementary code-fence strategy for names not yet captured. -/
def parseMembers (sec : String) : List MemberInfo :=
  let cs := sec.data
  let primary :=
    (memberHeadScan (cs.length + 1) cs true).foldl
      (fun acc p =>
        if skipMemberNames.contains p.1 then acc
        else
          acc ++ [parseMemberSection p.1 (String.mk (memberSectionOf p.2.2 p.2.1))])
      []
  (sigPatScan (cs.length + 1) cs).foldl
    (fun acc p =>
      let signature := trimJS p.1
      match sigNameScan signature.data with
      | some nm =>
        if acc.any fun m => m.name = nm then acc
        else
          match parseMemberFromSignature signature (String.mk p.2) with
          | some mem => acc ++ [mem]
          | none => acc
      | none => acc)
    primary

/-! ### parseClassSection and parseTypedocMarkdown -/
/-- Section-header names that are not actual classes. -/
def skipClassNames : List String :=
  ["Classes", "Interfaces", "Type", "Enumerations", "Functions", "Variables",
   "References", "Exports"]

/-- Model of JS String.prototype.startsWith. -/
def startsWithJS (s pre : String) : Bool := pre.data.isPrefixOf s.data

/-- Model of JS String.prototype.endsWith. -/
def endsWithJS (s suf : String) : Bool :=
  suf.data.reverse.isPrefixOf s.data.reverse

/-- Description lines: lines after the name line up to the first heading or
    code fence, trimmed, excluding empties, table rows and dash lines. -/
def collectDescLines : List String → List String
  | [] => []
  | l :: rest =>
    if startsWithJS l ("#") || startsWithJS l ("```") then []
    else
      let t := trimJS l
      (if t ≠ "" && !(startsWithJS t ("|")) && !(startsWithJS t ("-")) then [t]
       else []) ++
        collectDescLines rest

/-- parseClassSection from parse-typedoc.ts. -/
def parseClassSection (name : String) (sec : String)
    (pkg filePath sourceUrl : String) : Option ClassInfo :=
  if skipClassNames.contains name then none
  else
    let descLines := collectDescLines ((splitLines sec).drop 1)
    let lowerSec := lowerStr sec
    let ty :=
      if containsSub lowerSec ("interface") || startsWithJS name ("I") then
        "interface"
      else if containsSub lowerSec ("type alias") then "type"
      else if containsSub lowerSec ("enumeration") || endsWithJS name ("Enum") then
        "enum"
      else if containsSub lowerSec ("function") then "function"
      else "class"
    some
      { name := name
        package := pkg
        type := ty
        description := cleanDescription (String.intercalate (" ") descLines)
        extendsClause := extendsScan sec.data
        implementsClause := implementsParse sec
        decorators := extractDecorators sec
        members := parseMembers sec
        filePath := filePath
        sourceUrl := sourceUrl }

/-- Lookahead exclusion of the top-level split: the text after "## " must
    not start with a known structural header. -/
def topExcluded (rest : List Char) : Bool :=
  ["Classes", "Interfaces", "Type Aliases", "Enumerations", "Functions"].any
    fun w => w.data.isPrefixOf rest

/-- Lookahead exclusion of the nested split: (?!\s). -/
def nestedExcluded (rest : List Char) : Bool :=
  match rest with
  | c :: _ => isWsChar c
  | [] => false

/-- String.split on a multiline-anchored marker with a negative lookahead:
    a match needs a line start, the literal marker, and a non-excluded
    continuation; the separator is dropped and scanning resumes after it. -/
def splitMark (marker : List Char) (excl : List Char → Bool) :
    Nat → List Char → Bool → List Char → List (List Char)
  | 0, _, _, cur => [cur.reverse]
  | fuel + 1, cs, lineStart, cur =>
    if lineStart && marker.isPrefixOf cs && !excl (cs.drop marker.length) then
      cur.reverse :: splitMark marker excl fuel (cs.drop marker.length) false []
    else
      match cs with
      | [] => [cur.reverse]
      | c :: t => splitMark marker excl fuel t (c = '\n') (c :: cur)

/-- content.split(/^## (?!Classes|Interfaces|Type Aliases|Enumerations|Functions)/m). -/
def splitTopSections (content : String) : List String :=
  (splitMark ("## ".data) topExcluded (content.data.length + 1) content.data true
    []).map String.mk

/-- content.split(/^### (?!\s)/m). -/
def splitNestedSections (content : String) : List String :=
  (splitMark ("### ".data) nestedExcluded (content.data.length + 1) content.data
    true []).map String.mk

/-- detectPackageFromPath from parse-typedoc.ts (no chain-cli case; unknown
    default). -/
def detectPackageFromPath (filePath : String) : String :=
  if containsSub filePath ("chain-api-docs") then "chain-api"
  else if containsSub filePath ("chain-client-docs") then "chain-client"
  else if containsSub filePath ("chain-test-docs") then "chain-test"
  else if containsSub filePath ("chaincode-docs") then "chaincode"
  else "unknown"

/-- getSourceUrl from parse-typedoc.ts. -/
def getSourceUrl (filePath pkg : String) : String :=
  match sdkPathMatch filePath.data with
  | some rel => "https://github.com/GalaChain/sdk/blob/main/" ++ slashify rel
  | none => "https://docs.galachain.com/latest/" ++ pkg ++ "-docs/"

/-- First match of /^\[?(\w+)\]?/: an optional opening bracket, then the
    captured word run. -/
def leadingNameMatch (s : String) : Option String :=
  match s.data with
  | '[' :: t =>
    let w := t.takeWhile isWordChar
    if w ≠ [] then some (String.mk w) else none
  | cs =>
    let w := cs.takeWhile isWordChar
    if w ≠ [] then some (String.mk w) else none

/-- One section of the top-level pass: parse its first line's name and the
    class section; a first line that is empty or a further heading is
    skipped. -/
def typedocPass1Step (pkg filePath sourceUrl : String) (acc : List ClassInfo)
    (sec : String) : List ClassInfo :=
  let firstLine := trimJS ((splitLines sec).headD (""))
  if firstLine = "" || startsWithJS firstLine ("#") then acc
  else
    match leadingNameMatch firstLine with
    | none => acc
    | some nm =>
      match parseClassSection nm sec pkg filePath sourceUrl with
      | none => acc
      | some ci => acc ++ [ci]

/-- One section of the nested pass: like the top-level pass but without the
    heading check, and skipping names already parsed. -/
def typedocPass2Step (pkg filePath sourceUrl : String) (acc : List ClassInfo)
    (sec : String) : List ClassInfo :=
  let firstLine := trimJS ((splitLines sec).headD (""))
  if firstLine = "" then acc
  else
    match leadingNameMatch firstLine with
    | none => acc
    | some nm =>
      if acc.any fun ci => ci.name = nm then acc
      else
        match parseClassSection nm sec pkg filePath sourceUrl with
        | none => acc
        | some ci => acc ++ [ci]

/-- The top-level pass of parseTypedocMarkdown. -/
def typedocPass1 (content filePath : String) : List ClassInfo :=
  let pkg := detectPackageFromPath filePath
  let sourceUrl := getSourceUrl filePath pkg
  ((splitTopSections content).drop 1).foldl
    (typedocPass1Step pkg filePath sourceUrl) []

/-- parseTypedocMarkdown from parse-typedoc.ts: the top-level pass followed
    by the nested pass over the deeper split, accumulating into the same
    list. -/
def parseTypedocMarkdown (content filePath : String) : List ClassInfo :=
  let pkg := detectPackageFromPath filePath
  let sourceUrl := getSourceUrl filePath pkg
  ((splitNestedSections content).drop 1).foldl
    (typedocPass2Step pkg filePath sourceUrl) (typedocPass1 content filePath)

/-! ## Claim-side notions for the reference-parser claims -/
/-- Depth-tracking count of top-level commas, as the claim words it. -/
def countTopCommas : List Char → Int → Nat
  | [], _ => 0
  | c :: t, d =>
    if openBr c then countTopCommas t (d + 1)
    else if closeBr c then countTopCommas t (d - 1)
    else if c = ',' && d = 0 then 1 + countTopCommas t d
    else countTopCommas t d

/-- Claim-side number of top-level comma-separated argument groups: commas
    nested inside angle, paren, brace or bracket pairs do not split. -/
def topLevelGroupCount (args : String) : Nat :=
  if args = "" then 0 else 1 + countTopCommas args.data 0

/-- A structured signature argument: name, optional marker, type. -/
structure SigArg where
  name : String
  opt : Bool
  ty : String
deriving Repr, DecidableEq

/-- The textual form of one argument: name[?]: Type. -/
def SigArg.render (p : SigArg) : String :=
  p.name ++ (if p.opt then "?" else "") ++ ": " ++ p.ty

/-- The comma-joined argument list of a signature. -/
def renderArgs : List SigArg → String
  | [] => ""
  | [p] => p.render
  | p :: ps => p.render ++ ", " ++ renderArgs ps

/-- A well-formed identifier: non-empty and all word characters. -/
def wordNameB (s : String) : Bool := s ≠ "" && s.data.all isWordChar

/-- Balance check from a starting depth: closing brackets and commas only
    at positive depth, final depth zero. -/
def bbGo : List Char → Int → Bool
  | [], d => d = 0
  | c :: t, d =>
    if openBr c then bbGo t (d + 1)
    else if closeBr c then (1 ≤ d) && bbGo t (d - 1)
    else if c = ',' then (1 ≤ d) && bbGo t d
    else bbGo t d

/-- A type expression the amended C2 covers: visibly non-empty, free of
    parentheses (the outer group regex cannot cross a closing paren) and of
    bullet characters (which would trigger the enrichment pass), with its
    angle/brace/bracket nesting balanced and every comma nested. -/
def tyOk (t : String) : Bool :=
  trimJS t ≠ "" &&
    t.data.all (fun c => c ≠ '(' && c ≠ ')' && c ≠ '•' && c ≠ '-' && c ≠ '*') &&
    bbGo t.data 0

/-- Well-formedness of one structured argument. -/
def argOk (p : SigArg) : Bool := wordNameB p.name && tyOk p.ty

/-- Characters that leave the splitParams depth untouched and never split. -/
def neutralBr (c : Char) : Bool := !openBr c && !closeBr c && !(c = ',')

/-! ## Verification: lemmas and claim theorems -/

theorem foldl_sub_eq_sub_sum (f : String → Int) (l : List String) (x : Int) :
    l.foldl (fun sc t => sc - f t) x = x - (l.map f).sum := by
  induction l generalizing x with
  | nil => simp
  | cons h t ih =>
    simp only [List.foldl_cons, List.map_cons, List.sum_cons, ih]
    ring

theorem pmSave_eq_emit (meta : ChunkMeta) (a : PMAcc) :
    pmSave meta a = a.chunks ++ emitSec meta (a.heading, a.level, a.content) := by
  by_cases h : a.heading ≠ "" ∧ a.content ≠ [] <;>
    simp [pmSave, emitSec, h]

theorem pm_fold_spec (meta : ChunkMeta) (ns : List MdNode) :
    ∀ a : PMAcc,
      pmSave meta (ns.foldl (pmStep meta) a) =
        a.chunks ++ (specSecs (some (a.heading, a.level, a.content)) ns).flatMap (emitSec meta) := by
  induction ns with
  | nil =>
    intro a
    simp [specSecs, pmSave_eq_emit]
  | cons n ns ih =>
    intro a
    cases n with
    | heading d t =>
      simp only [List.foldl_cons, pmStep, specSecs, ih]
      simp [pmSave_eq_emit, List.append_assoc]
    | paragraph t => simp [pmStep, specSecs, contentText, ih]
    | code l v => simp [pmStep, specSecs, contentText, ih]
    | list ts cs => simp [pmStep, specSecs, contentText, ih]
    | blockquote t cs => simp [pmStep, specSecs, contentText, ih]
    | other cs => simp [pmStep, specSecs, contentText, ih]

theorem specSecs_empty_heading (ns : List MdNode) :
    ∀ cs0 : List String, ∀ l : Nat,
      (specSecs (some ("", l, cs0)) ns).flatMap (emitSec meta) =
        (specSecs none ns).flatMap (emitSec meta) := by
  induction ns with
  | nil => intro cs0 l; simp [specSecs, emitSec]
  | cons n ns ih =>
    intro cs0 l
    cases n with
    | heading d t => simp [specSecs, emitSec, ih]
    | paragraph t => simpa [specSecs, contentText] using ih _ _
    | code lg v => simpa [specSecs, contentText] using ih _ _
    | list ts cs => simpa [specSecs, contentText] using ih _ _
    | blockquote t cs => simpa [specSecs, contentText] using ih _ _
    | other cs => simpa [specSecs, contentText] using ih _ _

theorem bind_emit_eq_filterMap (meta : ChunkMeta) (l : List (String × Nat × List String)) :
    l.flatMap (emitSec meta) =
      l.filterMap fun p =>
        if p.1 ≠ "" ∧ p.2.2 ≠ [] then some (mkChunk meta p.1 p.2.1 p.2.2) else none := by
  induction l with
  | nil => rfl
  | cons p t ih =>
    by_cases h : p.1 ≠ "" ∧ p.2.2 ≠ [] <;>
      simp [emitSec, h, ih]

/-- C1: parseMarkdown emits one DocChunk per heading section that has both a
    non-empty heading and at least one content block (paragraph, code block,
    list, or blockquote), in document order; a section with no content blocks
    yields no chunk, and a document with no headings yields zero chunks
    (content before the first heading is discarded) — expressed by equality
    with the section-wise specification specChunks. -/
theorem C1_parseMarkdown_sections (doc : List MdNode) (filePath : String) :
    parseMarkdown doc filePath = specChunks doc filePath := by
  unfold parseMarkdown specChunks
  rw [pm_fold_spec, specSecs_empty_heading (flattenL doc) [] 1,
    bind_emit_eq_filterMap]
  rfl

/-- C3 counterexample: the claim's unclamped formula predicts a negative
    score on a short text with thrice-repeated fully-matching term, but the
    code clamps the score below at zero. -/
theorem C3_counterexample :
    calculateRelevance ("a") (["a", "a", "a"]) = 0 ∧
      claimRelevance ("a") (["a", "a", "a"]) = -60 ∧
      calculateRelevance ("a") (["a", "a", "a"]) ≠
        claimRelevance ("a") (["a", "a", "a"]) := by
  refine ⟨by decide, by decide, by decide⟩

/-- C3 amended: for every text row and list of search terms, the relevance
    score equals the claim's formula — 100, minus 20 per whole-word term
    (else 10 per substring term), minus 30 per term matching the first word,
    minus the under-100/under-50 length deductions — additionally clamped
    below at zero. -/
theorem C3_relevance_formula (text : String) (terms : List String) :
    calculateRelevance text terms = max 0 (claimRelevance text terms) := by
  unfold calculateRelevance claimRelevance
  rw [foldl_sub_eq_sub_sum]

theorem dropWhile_len_le {α : Type} (p : α → Bool) (l : List α) :
    (l.dropWhile p).length ≤ l.length :=
  (List.dropWhile_suffix p).length_le

/-! ## Claims about the query and tool layers -/
theorem mem_insertByRank (x r : SearchResult) (l : List SearchResult) :
    x ∈ insertByRank r l ↔ x = r ∨ x ∈ l := by
  induction l with
  | nil => simp [insertByRank]
  | cons h t ih =>
    by_cases hc : h.rank ≤ r.rank
    · simp [insertByRank, hc, ih]
      tauto
    · simp [insertByRank, hc, ih]

theorem mem_sortFold (x : SearchResult) (l : List SearchResult) :
    ∀ acc, x ∈ l.foldl (fun a r => insertByRank r a) acc ↔ x ∈ acc ∨ x ∈ l := by
  induction l with
  | nil => intro acc; simp
  | cons h t ih =>
    intro acc
    rw [List.foldl_cons, ih, mem_insertByRank]
    simp
    tauto

theorem mem_sortByRank (x : SearchResult) (l : List SearchResult) :
    x ∈ sortByRank l ↔ x ∈ l := by
  rw [sortByRank, mem_sortFold]
  simp

theorem searchDocsDocs_package (s : Store) (terms : List String) (pkg : String)
    (limit : Nat) (r : SearchResult) (hr : r ∈ searchDocsDocs s terms pkg limit)
    (h : pkg ≠ "all") : r.package = pkg := by
  unfold searchDocsDocs at hr
  obtain ⟨row, hrow, rfl⟩ := List.mem_map.mp hr
  have h2 := (List.mem_filter.mp (List.take_subset _ _ hrow)).2
  simp [pkgOK, h] at h2
  show row.package = pkg
  tauto

theorem searchDocsClasses_package (s : Store) (terms : List String) (pkg ty : String)
    (limit : Nat) (r : SearchResult) (hr : r ∈ searchDocsClasses s terms pkg ty limit)
    (h : pkg ≠ "all") : r.package = pkg := by
  unfold searchDocsClasses at hr
  obtain ⟨row, hrow, rfl⟩ := List.mem_map.mp hr
  have h2 := (List.mem_filter.mp (List.take_subset _ _ hrow)).2
  simp [pkgOK, h] at h2
  show row.package = pkg
  tauto

theorem searchDocsMembers_package (s : Store) (terms : List String) (pkg : String)
    (limit : Nat) (r : SearchResult) (hr : r ∈ searchDocsMembers s terms pkg limit)
    (h : pkg ≠ "all") : r.package = pkg := by
  unfold searchDocsMembers at hr
  obtain ⟨mc, hmc, rfl⟩ := List.mem_map.mp hr
  have h2 := (List.mem_filter.mp (List.take_subset _ _ hmc)).2
  simp [pkgOK, h] at h2
  show mc.2.package = pkg
  tauto

/-- C6: for every query, package filter, type filter and integer limit, the
    search operation run at the tool's clamped limit returns at most
    clamp(limit, 1, 20) results, and every returned result's package equals
    the package filter whenever that filter is not "all". -/
theorem C6_search_limit_and_package (s : Store) (q pkg ty : String) (limit : Int) :
    (searchDocs s q pkg ty (clampLimit limit)).length ≤ clampLimit limit ∧
      ∀ r ∈ searchDocs s q pkg ty (clampLimit limit),
        pkg ≠ "all" → r.package = pkg := by
  constructor
  · unfold searchDocs
    by_cases hts : queryTerms q = []
    · simp [hts]
    · rw [if_neg hts, List.length_take]
      exact min_le_left _ _
  · intro r hr hpkg
    unfold searchDocs at hr
    by_cases hts : queryTerms q = []
    · simp [hts] at hr
    · rw [if_neg hts] at hr
      have hmem := List.take_subset _ _ hr
      rw [mem_sortByRank] at hmem
      rcases List.mem_append.mp hmem with hmem | hmem3
      · rcases List.mem_append.mp hmem with hmem1 | hmem2
        · split at hmem1
          · exact searchDocsDocs_package _ _ _ _ _ hmem1 hpkg
          · simp at hmem1
        · split at hmem2
          · exact searchDocsClasses_package _ _ _ _ _ _ hmem2 hpkg
          · simp at hmem2
      · split at hmem3
        · exact searchDocsMembers_package _ _ _ _ _ hmem3 hpkg
        · simp at hmem3

/-- C7: a Declaration persisted with implementsClause = ["A","B"] and then
    retrieved via getClass yields implementsClause deep-equal to ["A","B"]:
    the JSON-array column round-trips through insertion and retrieval. -/
theorem C7_implements_roundtrip (s : Store) (c : ClassInfo)
    (h1 : c.implementsClause = ["A", "B"])
    (h2 : ∀ r ∈ s.classes, r.name ≠ c.name) :
    (getClass (insertClass s c) c.name none).map (fun cw => cw.implementsClause) =
      some ["A", "B"] := by
  have hnil : s.classes.filter (classMatch c.name none) = [] := by
    rw [List.filter_eq_nil_iff]
    intro r hr
    simp [classMatch]
    exact h2 r hr
  have hrt : safeParseStrArr
      (jsonStringify (Json.arr (List.map Json.str c.implementsClause))) =
        ["A", "B"] := by
    rw [h1]; decide
  simp [getClass, insertClass, normPkg, List.filter_append, hnil,
    List.filter_cons, classMatch, classRowToCW, hrt]

theorem C7_witness :
    (getClass (insertClass storeEmpty cinfoAB) (cinfoAB.name) none).map
        (fun cw => cw.implementsClause) = some ["A", "B"] :=
  C7_implements_roundtrip storeEmpty cinfoAB rfl
    (by intro r hr; simp [storeEmpty] at hr)

theorem stringMk_data (s : String) : String.mk s.data = s := rfl

theorem hasSub_single (l : List Char) (c : Char) :
    hasSub l [c] = true ↔ c ∈ l := by
  induction l with
  | nil => simp [hasSub, List.isPrefixOf]
  | cons h t ih =>
    rw [hasSub]
    by_cases hc : c = h
    · rw [if_pos (by simp [List.isPrefixOf, hc])]
      simp [hc]
    · rw [if_neg (by simp [List.isPrefixOf]; exact fun hh => absurd hh hc)]
      rw [ih]
      constructor
      · exact fun hm => List.mem_cons_of_mem _ hm
      · intro hm
        rcases List.mem_cons.mp hm with rfl | hm
        · exact absurd rfl hc
        · exact hm

theorem containsSub_single_iff (s : String) (c : Char) :
    containsSub s (String.mk [c]) = true ↔ c ∈ s.data :=
  hasSub_single s.data c

theorem splitOnDot_no_dot (cs : List Char) (h : '.' ∉ cs) :
    splitOnDot cs = [cs] := by
  induction cs with
  | nil => rfl
  | cons c t ih =>
    have hc : ¬ c = '.' := fun hh => h (hh ▸ List.mem_cons_self c t)
    have ht : '.' ∉ t := fun hh => h (List.mem_cons_of_mem c hh)
    rw [splitOnDot, if_neg hc, ih ht]

theorem splitOnDot_append (a b : List Char) (h : '.' ∉ a) :
    splitOnDot (a ++ '.' :: b) = a :: splitOnDot b := by
  induction a with
  | nil => simp [splitOnDot]
  | cons c t ih =>
    have hc : ¬ c = '.' := fun hh => h (hh ▸ List.mem_cons_self c t)
    have ht : '.' ∉ t := fun hh => h (List.mem_cons_of_mem c hh)
    rw [List.cons_append, splitOnDot, if_neg hc, ih ht]

/-- C8: getMethod("Foo.bar") returns exactly the joined member rows named
    bar whose owning class row is named Foo, while getMethod("bar") (no dot)
    returns the joined member rows named bar regardless of owner. -/
theorem C8_getMethod_owner_filter (s : Store) (cn mn : String)
    (hc : containsSub cn (".") = false) (hm : containsSub mn (".") = false) :
    getMethod s (cn ++ "." ++ mn) none =
      ((memberJoin s).filter fun mc =>
        mc.1.name = mn && mc.2.name = cn).map joinedToDetails ∧
    getMethod s mn none =
      ((memberJoin s).filter fun mc => mc.1.name = mn).map joinedToDetails := by
  have hdotcn : '.' ∉ cn.data := by
    intro hmem
    rw [show ("." : String) = String.mk ['.'] from rfl] at hc
    rw [(containsSub_single_iff cn '.').mpr hmem] at hc
    cases hc
  have hdotmn : '.' ∉ mn.data := by
    intro hmem
    rw [show ("." : String) = String.mk ['.'] from rfl] at hm
    rw [(containsSub_single_iff mn '.').mpr hmem] at hm
    cases hm
  constructor
  · unfold getMethod
    have hdata : (cn ++ "." ++ mn).data = cn.data ++ '.' :: mn.data := by
      simp [String.data_append]
    have hcontains : containsSub (cn ++ "." ++ mn) (".") = true := by
      rw [show ("." : String) = String.mk ['.'] from rfl,
        containsSub_single_iff, hdata]
      simp
    rw [if_pos hcontains]
    unfold splitDot2
    rw [hdata, splitOnDot_append _ _ hdotcn, splitOnDot_no_dot _ hdotmn]
    simp only [stringMk_data]
    congr 1
    apply List.filter_congr
    intro mc _
    simp [methodMatch, normPkg]
  · unfold getMethod
    rw [if_neg (by rw [hm]; simp)]
    show ((memberJoin s).filter (methodMatch mn none (normPkg none))).map
        joinedToDetails = _
    congr 1
    apply List.filter_congr
    intro mc _
    simp [methodMatch, normPkg]

theorem C8_witness :
    getMethod storeC8 ("Foo" ++ "." ++ "bar") none =
      ((memberJoin storeC8).filter fun mc =>
        mc.1.name = "bar" && mc.2.name = "Foo").map joinedToDetails ∧
    getMethod storeC8 ("bar") none =
      ((memberJoin storeC8).filter fun mc => mc.1.name = "bar").map
        joinedToDetails :=
  C8_getMethod_owner_filter storeC8 "Foo" "bar" (by decide) (by decide)

/-- C9: whenever the observable index status is building, each of the four
    query tools returns the explicit index-building indicator. -/
theorem C9_building_indicator (st : IndexStatus) (s : Store)
    (hb : st.status = .building) (sa : SearchArgs) (ca : GetClassArgs)
    (ma : GetMethodArgs) (la : ListModulesArgs) :
    searchGalachainDocs st s sa = ⟨buildingText⟩ ∧
      getGalachainClass st s ca = ⟨buildingText⟩ ∧
      getGalachainMethod st s ma = ⟨buildingText⟩ ∧
      listGalachainModules st s la = ⟨buildingText⟩ := by
  refine ⟨?_, ?_, ?_, ?_⟩ <;>
    simp [searchGalachainDocs, getGalachainClass, getGalachainMethod,
      listGalachainModules, hb]

theorem C9_witness :
    searchGalachainDocs ⟨.building, none⟩ storeEmpty
        { query := "q", package := none, type := none, limit := none } =
      ⟨buildingText⟩ ∧
    getGalachainClass ⟨.building, none⟩ storeEmpty
        { name := "Foo", package := none } = ⟨buildingText⟩ ∧
    getGalachainMethod ⟨.building, none⟩ storeEmpty
        { method_name := "bar", package := none } = ⟨buildingText⟩ ∧
    listGalachainModules ⟨.building, none⟩ storeEmpty
        { package := none, type := none } = ⟨buildingText⟩ :=
  C9_building_indicator ⟨.building, none⟩ storeEmpty rfl
    { query := "q", package := none, type := none, limit := none }
    { name := "Foo", package := none }
    { method_name := "bar", package := none }
    { package := none, type := none }

/-- C10: when several stored class rows match the requested name (and
    optional package filter), getClass returns exactly the first matching
    row in table order, together with only that row's members; under
    ascending row ids that first row has the smallest id among the matches. -/
theorem C10_getClass_first (s : Store) (name : String) (pkg : Option String)
    (cls : ClassRow)
    (h : (s.classes.filter (classMatch name (normPkg pkg))).head? = some cls) :
    getClass s name pkg = some (classRowToCW s cls) ∧
      (s.classes.Pairwise (fun a b => a.id < b.id) →
        ∀ c ∈ s.classes.filter (classMatch name (normPkg pkg)), cls.id ≤ c.id) := by
  constructor
  · simp [getClass, h]
  · intro hpw c hcmem
    have hpf : (s.classes.filter (classMatch name (normPkg pkg))).Pairwise
        (fun a b => a.id < b.id) := hpw.sublist (List.filter_sublist _)
    cases hf : s.classes.filter (classMatch name (normPkg pkg)) with
    | nil => rw [hf] at h; cases h
    | cons a t =>
      rw [hf] at h hcmem hpf
      have ha : a = cls := by
        simp [List.head?] at h
        exact h
      subst ha
      rcases List.mem_cons.mp hcmem with rfl | hin
      · exact le_refl _
      · exact le_of_lt ((List.pairwise_cons.mp hpf).1 c hin)

theorem C10_witness :
    getClass storeC10 ("Dup") none = some (classRowToCW storeC10 dupRow1) ∧
      (storeC10.classes.Pairwise (fun a b => a.id < b.id) →
        ∀ c ∈ storeC10.classes.filter (classMatch ("Dup") (normPkg none)),
          dupRow1.id ≤ c.id) :=
  C10_getClass_first storeC10 "Dup" none dupRow1 (by decide)

/-! ## Helper lemmas for the reference-parser claims -/
theorem word_ne (c : Char) (h : isWordChar c = true) (e : Char)
    (he : isWordChar e = false) : c ≠ e := by
  intro hce
  subst hce
  rw [h] at he
  cases he

theorem word_not_ws (c : Char) (h : isWordChar c = true) : isWsChar c = false := by
  cases hc : isWsChar c
  · rfl
  · exfalso
    simp [isWsChar] at hc
    rcases hc with ((((rfl | rfl) | rfl) | rfl) | rfl) | rfl <;>
      exact absurd h (by decide)

theorem word_not_openBr (c : Char) (h : isWordChar c = true) : openBr c = false := by
  cases hc : openBr c
  · rfl
  · exfalso
    simp [openBr] at hc
    rcases hc with ((rfl | rfl) | rfl) | rfl <;> exact absurd h (by decide)

theorem word_not_closeBr (c : Char) (h : isWordChar c = true) : closeBr c = false := by
  cases hc : closeBr c
  · rfl
  · exfalso
    simp [closeBr] at hc
    rcases hc with ((rfl | rfl) | rfl) | rfl <;> exact absurd h (by decide)

theorem takeWhile_all_stop (q : Char → Bool) (l : List Char) (hl : l.all q = true)
    (c : Char) (hc : q c = false) (r : List Char) :
    (l ++ c :: r).takeWhile q = l := by
  induction l with
  | nil => simp [List.takeWhile_cons, hc]
  | cons a t ih =>
    simp only [List.all_cons, Bool.and_eq_true] at hl
    simp [List.takeWhile_cons, hl.1, ih hl.2]

theorem dropWhile_all_stop (q : Char → Bool) (l : List Char) (hl : l.all q = true)
    (c : Char) (hc : q c = false) (r : List Char) :
    (l ++ c :: r).dropWhile q = c :: r := by
  induction l with
  | nil => simp [List.dropWhile_cons, hc]
  | cons a t ih =>
    simp only [List.all_cons, Bool.and_eq_true] at hl
    simp [List.dropWhile_cons, hl.1, ih hl.2]

theorem drop_takeWhile_len (p : Char → Bool) (l : List Char) :
    l.drop (l.takeWhile p).length = l.dropWhile p := by
  calc l.drop (l.takeWhile p).length
      = (l.takeWhile p ++ l.dropWhile p).drop (l.takeWhile p).length := by
        rw [List.takeWhile_append_dropWhile]
    _ = l.dropWhile p := List.drop_left _ _

theorem dropWhile_ws_pre (p : Char → Bool) (w x : List Char) (hw : w.all p = true) :
    (w ++ x).dropWhile p = x.dropWhile p := by
  induction w with
  | nil => rfl
  | cons a t ih =>
    simp only [List.all_cons, Bool.and_eq_true] at hw
    simp [List.dropWhile_cons, hw.1, ih hw.2]

theorem dropWhile_append_of_ne_nil (p : Char → Bool) (l r : List Char)
    (h : l.dropWhile p ≠ []) :
    (l ++ r).dropWhile p = l.dropWhile p ++ r := by
  induction l with
  | nil => simp at h
  | cons a t ih =>
    by_cases ha : p a = true
    · rw [List.dropWhile_cons, if_pos ha] at h
      simp only [List.cons_append, List.dropWhile_cons, ha, if_true]
      exact ih h
    · simp [List.dropWhile_cons, ha]

theorem dropWhile_head_false (p : Char → Bool) (l : List Char) (c : Char)
    (r : List Char) (h : l.dropWhile p = c :: r) : p c = false := by
  induction l with
  | nil => cases h
  | cons a t ih =>
    rw [List.dropWhile_cons] at h
    by_cases ha : p a = true
    · rw [if_pos ha] at h
      exact ih h
    · rw [if_neg (by simp [ha])] at h
      cases h
      simpa using ha

theorem mk_eq_empty (l : List Char) : String.mk l = "" ↔ l = [] := by
  constructor
  · intro h
    have : (String.mk l).data = ("" : String).data := by rw [h]
    simpa using this
  · intro h
    rw [h]

theorem data_eq_nil (s : String) (h : s.data = []) : s = "" := by
  cases s with
  | mk l =>
    have hl : l = [] := h
    rw [hl]

theorem trim_head_ne (c0 : Char) (l : List Char) (hc : isWsChar c0 = false) :
    trimJS (String.mk (c0 :: l)) ≠ "" := by
  unfold trimJS
  rw [Ne, mk_eq_empty]
  intro h
  have h2 : (List.reverse (c0 :: l)).dropWhile isWsChar = [] := by
    have hdw : (c0 :: l).dropWhile isWsChar = c0 :: l := by
      rw [List.dropWhile_cons, if_neg (by simp [hc])]
    rw [show (String.mk (c0 :: l)).data = c0 :: l from rfl, hdw] at h
    simpa using h
  rw [List.dropWhile_eq_nil_iff] at h2
  have := h2 c0 (by simp)
  rw [hc] at this
  cases this

theorem trim_ws_pre (w x : List Char) (hw : w.all isWsChar = true) :
    trimJS (String.mk (w ++ x)) = trimJS (String.mk x) := by
  unfold trimJS
  rw [show (String.mk (w ++ x)).data = w ++ x from rfl,
    show (String.mk x).data = x from rfl, dropWhile_ws_pre _ _ _ hw]

theorem dotPlusAfterWs_isSome (cs : List Char) (c : Char)
    (hc : isWsChar c = false) (hmem : c ∈ cs) :
    (dotPlusAfterWs cs).isSome = true := by
  have hx := drop_takeWhile_len isWsChar cs
  have hne : cs.dropWhile isWsChar ≠ [] := by
    intro h
    rw [List.dropWhile_eq_nil_iff] at h
    have := h c hmem
    rw [hc] at this
    cases this
  cases hd : cs.dropWhile isWsChar with
  | nil => exact absurd hd hne
  | cons a t => simp [dotPlusAfterWs, dotPlusAfterWsR, hx, hd]

theorem bulletScan_nil (fuel : Nat) :
    ∀ cs : List Char,
      (∀ c ∈ cs, (c = '•' || c = '-' || c = '*') = false) →
      bulletScan fuel cs = [] := by
  induction fuel with
  | zero => intro cs h; cases cs <;> simp [bulletScan]
  | succ n ih =>
    intro cs h
    cases cs with
    | nil => simp [bulletScan]
    | cons c t =>
      have hc := h c (List.mem_cons_self _ _)
      have hnone : tryBulletAt (c :: t) = none := by
        simp [tryBulletAt, hc]
      have hstep : bulletScan (n + 1) (c :: t) = bulletScan n t := by
        simp [bulletScan, hnone]
      rw [hstep]
      exact ih t fun d hd => h d (List.mem_cons_of_mem _ hd)

theorem length_filterMap_isSome {α β : Type} (f : α → Option β) (l : List α)
    (h : ∀ x ∈ l, (f x).isSome = true) :
    (l.filterMap f).length = l.length := by
  induction l with
  | nil => rfl
  | cons a t ih =>
    obtain ⟨b, hb⟩ := Option.isSome_iff_exists.mp (h a (List.mem_cons_self _ _))
    rw [List.filterMap_cons, hb]
    simp only [List.length_cons]
    rw [ih fun x hx => h x (List.mem_cons_of_mem _ hx)]

theorem all_mono {p q : Char → Bool} (h : ∀ c, p c = true → q c = true)
    (l : List Char) (hl : l.all p = true) : l.all q = true := by
  rw [List.all_eq_true] at hl ⊢
  exact fun x hx => h x (hl x hx)

theorem render_data (p : SigArg) :
    (p.render).data =
      p.name.data ++ (if p.opt then ['?'] else []) ++ (':' :: ' ' :: p.ty.data) := by
  cases hop : p.opt <;>
    simp [SigArg.render, hop, String.data_append, List.append_assoc]

theorem word_neutral (c : Char) (h : isWordChar c = true) : neutralBr c = true := by
  have h1 := word_not_openBr c h
  have h2 := word_not_closeBr c h
  have h3 : c ≠ ',' := word_ne c h ',' (by decide)
  simp [neutralBr, h1, h2, h3]

theorem bbGo_neutral_append (l : List Char) (hl : l.all neutralBr = true)
    (r : List Char) (d : Int) : bbGo (l ++ r) d = bbGo r d := by
  induction l generalizing d with
  | nil => rfl
  | cons a t ih =>
    simp only [List.all_cons, Bool.and_eq_true] at hl
    have ha := hl.1
    simp only [neutralBr, Bool.and_eq_true, Bool.not_eq_true'] at ha
    have ha3 : ¬(a = ',') := by simpa using ha.2
    rw [List.cons_append]
    rw [show bbGo (a :: (t ++ r)) d = bbGo (t ++ r) d from by
      simp [bbGo, ha.1.1, ha.1.2, ha3]]
    exact ih hl.2 d

theorem argOk_parts (p : SigArg) (hp : argOk p = true) :
    p.name ≠ "" ∧ p.name.data.all isWordChar = true ∧ trimJS p.ty ≠ "" ∧
      p.ty.data.all
        (fun c => c ≠ '(' && c ≠ ')' && c ≠ '•' && c ≠ '-' && c ≠ '*') = true ∧
      bbGo p.ty.data 0 = true := by
  simp only [argOk, wordNameB, tyOk, Bool.and_eq_true, decide_eq_true_eq] at hp
  tauto

theorem render_bb (p : SigArg) (hp : argOk p = true) :
    bbGo (p.render).data 0 = true := by
  obtain ⟨_, hword, _, _, hbb⟩ := argOk_parts p hp
  rw [render_data, List.append_assoc,
    bbGo_neutral_append _ (all_mono word_neutral _ hword)]
  cases hop : p.opt
  · simpa [bbGo, openBr, closeBr] using hbb
  · simpa [bbGo, openBr, closeBr] using hbb

theorem splitGo_block (B : List Char) :
    ∀ d : Int, bbGo B d = true → ∀ rest cur : List Char,
      splitGo (B ++ rest) d cur = splitGo rest 0 (B.reverse ++ cur) := by
  induction B with
  | nil =>
    intro d hB rest cur
    simp only [bbGo, decide_eq_true_eq] at hB
    simp [hB]
  | cons c t ih =>
    intro d hB rest cur
    rw [List.cons_append]
    by_cases h1 : openBr c = true
    · rw [show splitGo (c :: (t ++ rest)) d cur = splitGo (t ++ rest) (d + 1) (c :: cur)
        from by simp [splitGo, h1]]
      rw [show bbGo (c :: t) d = bbGo t (d + 1) from by simp [bbGo, h1]] at hB
      rw [ih (d + 1) hB rest (c :: cur)]
      simp
    · by_cases h2 : closeBr c = true
      · have hB2 : (1 ≤ d) ∧ bbGo t (d - 1) = true := by
          simpa [bbGo, h1, h2] using hB
        rw [show splitGo (c :: (t ++ rest)) d cur = splitGo (t ++ rest) (d - 1) (c :: cur)
          from by simp [splitGo, h1, h2]]
        rw [ih (d - 1) hB2.2 rest (c :: cur)]
        simp
      · by_cases h3 : c = ','
        · subst h3
          have hB2 : (1 ≤ d) ∧ bbGo t d = true := by
            simpa [bbGo, openBr, closeBr] using hB
          have hd0 : ¬(d = 0) := by omega
          rw [show splitGo (',' :: (t ++ rest)) d cur = splitGo (t ++ rest) d (',' :: cur)
            from by simp [splitGo, openBr, closeBr, hd0]]
          rw [ih d hB2.2 rest (',' :: cur)]
          simp
        · have hB2 : bbGo t d = true := by simpa [bbGo, h1, h2, h3] using hB
          rw [show splitGo (c :: (t ++ rest)) d cur = splitGo (t ++ rest) d (c :: cur)
            from by simp [splitGo, h1, h2, h3]]
          rw [ih d hB2 rest (c :: cur)]
          simp

theorem exists_non_ws_of_trim_ne (t : String) (h : trimJS t ≠ "") :
    ∃ c ∈ t.data, isWsChar c = false := by
  by_contra hall
  push_neg at hall
  apply h
  have hd : t.data.dropWhile isWsChar = [] := by
    rw [List.dropWhile_eq_nil_iff]
    intro c hc
    cases hcw : isWsChar c
    · exact absurd hcw (hall c hc)
    · rfl
  unfold trimJS
  rw [hd]
  rfl

theorem trim_render_ne (p : SigArg) (hp : argOk p = true) :
    trimJS p.render ≠ "" := by
  obtain ⟨hne, hword, _, _, _⟩ := argOk_parts p hp
  cases hnd : p.name.data with
  | nil => exact absurd (data_eq_nil _ hnd) hne
  | cons c0 nt =>
    have hc0 : isWordChar c0 = true := by
      rw [hnd] at hword
      simp only [List.all_cons, Bool.and_eq_true] at hword
      exact hword.1
    have hrd : (p.render).data =
        c0 :: (nt ++ ((if p.opt then ['?'] else []) ++ (':' :: ' ' :: p.ty.data))) := by
      rw [render_data, hnd]
      simp [List.append_assoc]
    rw [← stringMk_data p.render, hrd]
    exact trim_head_ne c0 _ (word_not_ws c0 hc0)

theorem trim_rev_append (cur : List Char) (hcur : cur.all isWsChar = true)
    (B : List Char) :
    trimJS (String.mk ((B.reverse ++ cur).reverse)) = trimJS (String.mk B) := by
  have h1 : (B.reverse ++ cur).reverse = cur.reverse ++ B := by simp
  rw [h1]
  exact trim_ws_pre _ _ (by
    rw [List.all_eq_true] at hcur ⊢
    intro x hx
    exact hcur x (List.mem_reverse.mp hx))

theorem renderArgs_cons_data (p q : SigArg) (qs : List SigArg) :
    (renderArgs (p :: q :: qs)).data =
      (p.render).data ++ (',' :: ' ' :: (renderArgs (q :: qs)).data) := by
  have hcomma : ((", " : String)).data = [',', ' '] := rfl
  show ((p.render ++ ", " ++ renderArgs (q :: qs))).data = _
  simp [String.data_append, hcomma]

theorem splitGo_render (ps : List SigArg) :
    (∀ p ∈ ps, argOk p = true) → ps ≠ [] →
    ∀ cur : List Char, cur.all isWsChar = true →
      splitGo (renderArgs ps).data 0 cur = ps.map fun p => trimJS p.render := by
  induction ps with
  | nil => intro _ h; exact absurd rfl h
  | cons p ps ih =>
    intro hps _ cur hcur
    have hp := hps p (List.mem_cons_self _ _)
    cases ps with
    | nil =>
      have h1 : (renderArgs [p]).data = (p.render).data ++ [] := by
        simp [renderArgs]
      rw [h1, splitGo_block _ 0 (render_bb p hp) [] cur]
      simp only [splitGo]
      rw [trim_rev_append cur hcur (p.render).data, stringMk_data]
      rw [if_pos (trim_render_ne p hp)]
      simp
    | cons q qs =>
      rw [renderArgs_cons_data, splitGo_block _ 0 (render_bb p hp) _ cur]
      rw [show splitGo (',' :: ' ' :: (renderArgs (q :: qs)).data) 0
            ((p.render).data.reverse ++ cur) =
          trimJS (String.mk (((p.render).data.reverse ++ cur).reverse)) ::
            splitGo (' ' :: (renderArgs (q :: qs)).data) 0 [] from by
        simp [splitGo, openBr, closeBr]]
      rw [show splitGo (' ' :: (renderArgs (q :: qs)).data) 0 [] =
          splitGo ((renderArgs (q :: qs)).data) 0 [' '] from by
        simp [splitGo, openBr, closeBr]]
      rw [ih (fun r hr => hps r (List.mem_cons_of_mem _ hr)) (by simp) [' '] (by decide)]
      rw [trim_rev_append cur hcur (p.render).data, stringMk_data]
      simp

theorem countTopCommas_block (B : List Char) :
    ∀ d : Int, bbGo B d = true → ∀ rest : List Char,
      countTopCommas (B ++ rest) d = countTopCommas rest 0 := by
  induction B with
  | nil =>
    intro d hB rest
    simp only [bbGo, decide_eq_true_eq] at hB
    simp [hB]
  | cons c t ih =>
    intro d hB rest
    rw [List.cons_append]
    by_cases h1 : openBr c = true
    · rw [show countTopCommas (c :: (t ++ rest)) d = countTopCommas (t ++ rest) (d + 1)
        from by simp [countTopCommas, h1]]
      rw [show bbGo (c :: t) d = bbGo t (d + 1) from by simp [bbGo, h1]] at hB
      exact ih (d + 1) hB rest
    · by_cases h2 : closeBr c = true
      · have hB2 : (1 ≤ d) ∧ bbGo t (d - 1) = true := by
          simpa [bbGo, h1, h2] using hB
        rw [show countTopCommas (c :: (t ++ rest)) d = countTopCommas (t ++ rest) (d - 1)
          from by simp [countTopCommas, h1, h2]]
        exact ih (d - 1) hB2.2 rest
      · by_cases h3 : c = ','
        · subst h3
          have hB2 : (1 ≤ d) ∧ bbGo t d = true := by
            simpa [bbGo, openBr, closeBr] using hB
          have hd0 : ¬(d = 0) := by omega
          rw [show countTopCommas (',' :: (t ++ rest)) d = countTopCommas (t ++ rest) d
            from by simp [countTopCommas, openBr, closeBr, hd0]]
          exact ih d hB2.2 rest
        · have hB2 : bbGo t d = true := by simpa [bbGo, h1, h2, h3] using hB
          rw [show countTopCommas (c :: (t ++ rest)) d = countTopCommas (t ++ rest) d
            from by simp [countTopCommas, h1, h2, h3]]
          exact ih d hB2 rest

theorem countTopCommas_renderArgs (p : SigArg) (ps : List SigArg)
    (hps : ∀ r ∈ p :: ps, argOk r = true) :
    countTopCommas (renderArgs (p :: ps)).data 0 = ps.length := by
  induction ps generalizing p with
  | nil =>
    have h1 : (renderArgs [p]).data = (p.render).data ++ [] := by simp [renderArgs]
    rw [h1,
      countTopCommas_block _ 0 (render_bb p (hps p (List.mem_cons_self _ _))) []]
    rfl
  | cons q qs ih =>
    rw [renderArgs_cons_data,
      countTopCommas_block _ 0 (render_bb p (hps p (List.mem_cons_self _ _))) _]
    rw [show countTopCommas (',' :: ' ' :: (renderArgs (q :: qs)).data) 0 =
        1 + countTopCommas ((renderArgs (q :: qs)).data) 0 from by
      simp [countTopCommas, openBr, closeBr]]
    rw [ih q (fun r hr => hps r (List.mem_cons_of_mem _ hr))]
    simp [List.length_cons]
    omega

theorem topLevelGroupCount_renderArgs (ps : List SigArg)
    (hps : ∀ r ∈ ps, argOk r = true) :
    topLevelGroupCount (renderArgs ps) = ps.length := by
  cases ps with
  | nil => rfl
  | cons p ps =>
    have hdata : (renderArgs (p :: ps)).data ≠ [] := by
      cases ps with
      | nil =>
        have h1 : (renderArgs [p]).data = (p.render).data := by simp [renderArgs]
        rw [h1, render_data]
        simp
      | cons q qs =>
        rw [renderArgs_cons_data, render_data]
        simp
    have hne : renderArgs (p :: ps) ≠ "" := fun h => hdata (by rw [h])
    unfold topLevelGroupCount
    rw [if_neg hne, countTopCommas_renderArgs p ps hps]
    simp [List.length_cons]
    omega

theorem trim_render_data (p : SigArg) (hp : argOk p = true) :
    ∃ tyR : List Char,
      (trimJS p.render).data =
        p.name.data ++ (if p.opt then ['?'] else []) ++ (':' :: ' ' :: tyR) ∧
      ∃ e ∈ tyR, isWsChar e = false := by
  obtain ⟨hne, hword, htne, _, _⟩ := argOk_parts p hp
  obtain ⟨w, hw_mem, hw⟩ := exists_non_ws_of_trim_ne p.ty htne
  have hDne : (p.ty.data.reverse.dropWhile isWsChar) ≠ [] := by
    intro h
    rw [List.dropWhile_eq_nil_iff] at h
    have hww := h w (List.mem_reverse.mpr hw_mem)
    rw [hw] at hww
    cases hww
  cases hnd : p.name.data with
  | nil => exact absurd (data_eq_nil _ hnd) hne
  | cons c0 nt =>
    have hc0 : isWordChar c0 = true := by
      rw [hnd] at hword
      simp only [List.all_cons, Bool.and_eq_true] at hword
      exact hword.1
    refine ⟨(p.ty.data.reverse.dropWhile isWsChar).reverse, ?_, ?_⟩
    · have hdata : (p.render).data =
          c0 :: (nt ++ ((if p.opt then ['?'] else []) ++ (':' :: ' ' :: p.ty.data))) := by
        rw [render_data, hnd]
        simp [List.append_assoc]
      show (((p.render).data.dropWhile isWsChar).reverse.dropWhile isWsChar).reverse = _
      rw [hdata]
      rw [show (c0 :: (nt ++ ((if p.opt then ['?'] else []) ++
            (':' :: ' ' :: p.ty.data)))).dropWhile isWsChar
          = c0 :: (nt ++ ((if p.opt then ['?'] else []) ++
            (':' :: ' ' :: p.ty.data))) from by
        simp [List.dropWhile_cons, word_not_ws c0 hc0]]
      have hrev : (c0 :: (nt ++ ((if p.opt then ['?'] else []) ++
            (':' :: ' ' :: p.ty.data)))).reverse
          = p.ty.data.reverse ++
            (' ' :: ':' :: ((if p.opt then ['?'] else []).reverse ++
              (nt.reverse ++ [c0]))) := by
        simp [List.reverse_cons, List.reverse_append, List.append_assoc]
      rw [hrev, dropWhile_append_of_ne_nil _ _ _ hDne]
      simp [List.reverse_append, List.reverse_cons, List.append_assoc]
    · cases hD : p.ty.data.reverse.dropWhile isWsChar with
      | nil => exact absurd hD hDne
      | cons e E =>
        refine ⟨e, ?_, dropWhile_head_false _ _ _ _ hD⟩
        simp

theorem paramMatchScan_trim_render (p : SigArg) (hp : argOk p = true) :
    (paramMatchScan (trimJS p.render).data).isSome = true := by
  obtain ⟨tyR, hdata, e, he_mem, he⟩ := trim_render_data p hp
  obtain ⟨hne, hword, _, _, _⟩ := argOk_parts p hp
  cases hnd : p.name.data with
  | nil => exact absurd (data_eq_nil _ hnd) hne
  | cons c0 nt =>
    rw [hnd] at hword hdata
    simp only [List.all_cons, Bool.and_eq_true] at hword
    obtain ⟨hc0, hnt⟩ := hword
    rw [hdata]
    obtain ⟨g, hg⟩ := Option.isSome_iff_exists.mp
      (dotPlusAfterWs_isSome (' ' :: tyR) e he (List.mem_cons_of_mem _ he_mem))
    cases hop : p.opt
    · have hsh : (c0 :: nt ++ if false = true then ['?'] else []) ++ ':' :: ' ' :: tyR
          = c0 :: (nt ++ ':' :: ' ' :: tyR) := by
        simp
      rw [hsh]
      have htw : (nt ++ ':' :: ' ' :: tyR).takeWhile isWordChar = nt :=
        takeWhile_all_stop _ nt hnt ':' (by decide) _
      have hdr : (nt ++ ':' :: ' ' :: tyR).drop nt.length = ':' :: ' ' :: tyR :=
        List.drop_left _ _
      simp [paramMatchScan, hc0, htw, hdr, hg]
    · have hsh : (c0 :: nt ++ if true = true then ['?'] else []) ++ ':' :: ' ' :: tyR
          = c0 :: (nt ++ '?' :: ':' :: ' ' :: tyR) := by
        simp
      rw [hsh]
      have htw : (nt ++ '?' :: ':' :: ' ' :: tyR).takeWhile isWordChar = nt :=
        takeWhile_all_stop _ nt hnt '?' (by decide) _
      have hdr : (nt ++ '?' :: ':' :: ' ' :: tyR).drop nt.length
          = '?' :: ':' :: ' ' :: tyR :=
        List.drop_left _ _
      simp [paramMatchScan, hc0, htw, hdr, hg]

theorem sigNameScan_word (c0 : Char) (nt rest : List Char)
    (hw : (c0 :: nt).all isWordChar = true) :
    sigNameScan (c0 :: (nt ++ '(' :: rest)) = some (String.mk (c0 :: nt)) := by
  simp only [List.all_cons, Bool.and_eq_true] at hw
  obtain ⟨hc0, hnt⟩ := hw
  have htw : (nt ++ '(' :: rest).takeWhile isWordChar = nt :=
    takeWhile_all_stop _ nt hnt '(' (by decide) _
  have hdr : (nt ++ '(' :: rest).drop nt.length = '(' :: rest := List.drop_left _ _
  have hws : isWsChar '(' = false := by decide
  simp [sigNameScan, hc0, htw, hdr, List.dropWhile_cons, hws]

theorem word_no_paren (c : Char) (h : isWordChar c = true) :
    (decide (c ≠ '(') && decide (c ≠ ')')) = true := by
  rw [decide_eq_true (word_ne c h '(' (by decide)),
    decide_eq_true (word_ne c h ')' (by decide))]
  rfl

theorem ty_no_paren (c : Char)
    (hc : (decide (c ≠ '(') && decide (c ≠ ')') && decide (c ≠ '•') &&
      decide (c ≠ '-') && decide (c ≠ '*')) = true) :
    (decide (c ≠ '(') && decide (c ≠ ')')) = true := by
  simp only [Bool.and_eq_true] at hc ⊢
  exact ⟨hc.1.1.1.1, hc.1.1.1.2⟩

theorem firstParenGroup_render (nmd args : List Char)
    (hnm : nmd.all isWordChar = true)
    (hargs : args.all (fun c => c ≠ '(' && c ≠ ')') = true) :
    firstParenGroup (nmd ++ '(' :: (args ++ [')'])) = some args := by
  unfold firstParenGroup
  have hno : nmd.all (fun c => c ≠ '(') = true :=
    all_mono (fun c hc => decide_eq_true (word_ne c hc '(' (by decide))) nmd hnm
  have h1 : (nmd ++ '(' :: (args ++ [')'])).dropWhile (fun c => c ≠ '(')
      = '(' :: (args ++ [')']) :=
    dropWhile_all_stop _ nmd hno '(' (by decide) _
  rw [h1]
  have htk : List.takeWhile (fun c => !decide (c = ')')) (args ++ ')' :: []) = args :=
    takeWhile_all_stop _ args
      (all_mono (fun c hc => by
        simp only [Bool.and_eq_true] at hc
        simpa using hc.2) args hargs) ')' (by decide) []
  simp [htk]

theorem render_no_paren (p : SigArg) (hp : argOk p = true) :
    (p.render).data.all (fun c => c ≠ '(' && c ≠ ')') = true := by
  obtain ⟨_, hword, _, htyall, _⟩ := argOk_parts p hp
  rw [render_data]
  simp only [List.all_append, Bool.and_eq_true]
  refine ⟨⟨all_mono word_no_paren _ hword, ?_⟩, ?_⟩
  · cases p.opt <;> simp
  · simp only [List.all_cons, Bool.and_eq_true]
    exact ⟨by decide, by decide, all_mono ty_no_paren _ htyall⟩

theorem renderArgs_no_paren (ps : List SigArg)
    (hps : ∀ p ∈ ps, argOk p = true) :
    (renderArgs ps).data.all (fun c => c ≠ '(' && c ≠ ')') = true := by
  induction ps with
  | nil => rfl
  | cons p ps ih =>
    have hrender := render_no_paren p (hps p (List.mem_cons_self _ _))
    cases ps with
    | nil =>
      have h1 : (renderArgs [p]).data = (p.render).data := by simp [renderArgs]
      rw [h1]
      exact hrender
    | cons q qs =>
      rw [renderArgs_cons_data]
      simp only [List.all_append, List.all_cons, Bool.and_eq_true]
      exact ⟨hrender, by decide, by decide,
        ih (fun r hr => hps r (List.mem_cons_of_mem _ hr))⟩

theorem renderArgs_head (p : SigArg) (ps : List SigArg) :
    ∃ X : List Char, (renderArgs (p :: ps)).data = (p.render).data ++ X := by
  cases ps with
  | nil => exact ⟨[], by simp [renderArgs]⟩
  | cons q qs => exact ⟨_, renderArgs_cons_data p q qs⟩

theorem trim_renderArgs_ne (p : SigArg) (ps : List SigArg) (hp : argOk p = true) :
    trimJS (renderArgs (p :: ps)) ≠ "" := by
  obtain ⟨hne, hword, _, _, _⟩ := argOk_parts p hp
  obtain ⟨X, hX⟩ := renderArgs_head p ps
  cases hnd : p.name.data with
  | nil => exact absurd (data_eq_nil _ hnd) hne
  | cons c0 nt =>
    have hc0 : isWordChar c0 = true := by
      rw [hnd] at hword
      simp only [List.all_cons, Bool.and_eq_true] at hword
      exact hword.1
    have hdata : (renderArgs (p :: ps)).data
        = c0 :: (nt ++ (((if p.opt then ['?'] else []) ++
          (':' :: ' ' :: p.ty.data)) ++ X)) := by
      rw [hX, render_data, hnd]
      simp [List.append_assoc]
    rw [← stringMk_data (renderArgs (p :: ps)), hdata]
    exact trim_head_ne c0 _ (word_not_ws c0 hc0)

theorem signature_data (nm : String) (ps : List SigArg) :
    (nm ++ "(" ++ renderArgs ps ++ ")").data
      = nm.data ++ '(' :: ((renderArgs ps).data ++ [')']) := by
  have h1 : (("(" : String)).data = ['('] := rfl
  have h2 : (((")") : String)).data = [')'] := rfl
  simp [String.data_append, h1, h2, List.append_assoc]

theorem sigParams_render (nm : String) (ps : List SigArg)
    (hnm : wordNameB nm = true) (hps : ∀ p ∈ ps, argOk p = true) :
    (sigParams (nm ++ "(" ++ renderArgs ps ++ ")")).length = ps.length := by
  have hnword : nm.data.all isWordChar = true := by
    simp only [wordNameB, Bool.and_eq_true, decide_eq_true_eq] at hnm
    exact hnm.2
  have hsig2 : sigParams (nm ++ "(" ++ renderArgs ps ++ ")") =
      (if trimJS (String.mk (renderArgs ps).data) ≠ "" then
        (splitParams (String.mk (renderArgs ps).data)).filterMap fun part =>
          (paramMatchScan part.data).map fun r =>
            { name := r.1, type := trimJS r.2.2, description := "",
              optional := r.2.1 }
      else []) := by
    unfold sigParams
    rw [signature_data,
      firstParenGroup_render nm.data _ hnword (renderArgs_no_paren ps hps)]
  rw [hsig2, stringMk_data]
  cases ps with
  | nil => rfl
  | cons p ps2 =>
    rw [if_pos (trim_renderArgs_ne p ps2 (hps p (List.mem_cons_self _ _)))]
    rw [show splitParams (renderArgs (p :: ps2))
        = splitGo (renderArgs (p :: ps2)).data 0 [] from rfl]
    rw [splitGo_render (p :: ps2) hps (by simp) [] (by decide)]
    rw [length_filterMap_isSome]
    · exact List.length_map _ _
    · intro x hx
      obtain ⟨r, hr, hxr⟩ := List.mem_map.mp hx
      obtain ⟨g, hg⟩ := Option.isSome_iff_exists.mp
        (paramMatchScan_trim_render r (hps r hr))
      rw [← hxr]
      simp [hg]

/-- C2 counterexample: for the section whose fenced signature line is
    foo(a), the extracted member is named foo with zero params, yet the
    argument text a has one top-level comma-separated group: the name[?]: Type
    shape, not the group split, decides whether a param entry is produced. -/
theorem C2_counterexample :
    (parseMemberFromSignature ("foo(a)") "").map
        (fun m => (m.name, m.params.length)) = some (("foo"), 0) ∧
      topLevelGroupCount ("a") = 1 := by
  exact ⟨rfl, rfl⟩

/-- C2 (amended): for a signature line name(args) whose argument text is a
    comma-separated join of well-formed parts name[?]: Type (word-character
    names; types visibly non-empty, free of parentheses and bullet
    characters, with balanced nesting and no top-level comma), extracted
    from a section free of bullet characters, the member extraction yields
    a member whose name is the identifier and whose params list has exactly
    one entry per top-level comma-separated argument group of args. -/
theorem C2_member_extraction (nm ctx : String) (ps : List SigArg)
    (hnm : wordNameB nm = true)
    (hps : ∀ p ∈ ps, argOk p = true)
    (hctx : ∀ c ∈ ctx.data, (c = '•' || c = '-' || c = '*') = false) :
    (parseMemberFromSignature (nm ++ "(" ++ renderArgs ps ++ ")") ctx).map
        (fun m => (m.name, m.params.length))
      = some (nm, topLevelGroupCount (renderArgs ps)) := by
  have hnne : nm ≠ "" := by
    simp only [wordNameB, Bool.and_eq_true, decide_eq_true_eq] at hnm
    exact hnm.1
  have hnword : nm.data.all isWordChar = true := by
    simp only [wordNameB, Bool.and_eq_true, decide_eq_true_eq] at hnm
    exact hnm.2
  have hparams : (parseParams ctx (nm ++ "(" ++ renderArgs ps ++ ")")).length
      = topLevelGroupCount (renderArgs ps) := by
    unfold parseParams
    rw [bulletScan_nil _ _ hctx]
    simp only [List.foldl_nil]
    rw [sigParams_render nm ps hnm hps, topLevelGroupCount_renderArgs ps hps]
  cases hnd : nm.data with
  | nil => exact absurd (data_eq_nil _ hnd) hnne
  | cons c0 nt =>
    have hsig : sigNameScan (nm ++ "(" ++ renderArgs ps ++ ")").data = some nm := by
      rw [signature_data, hnd]
      rw [show (c0 :: nt) ++ '(' :: ((renderArgs ps).data ++ [')'])
          = c0 :: (nt ++ '(' :: ((renderArgs ps).data ++ [')'])) from rfl]
      rw [sigNameScan_word c0 nt _ (by rw [hnd] at hnword; exact hnword)]
      rw [← hnd, stringMk_data]
    unfold parseMemberFromSignature
    rw [hsig]
    show some (nm, (parseParams ctx (nm ++ "(" ++ renderArgs ps ++ ")")).length) = _
    rw [hparams]

/-- C2 witness: the createToken signature with one required and one optional
    argument, extracted from an empty (bullet-free) section. -/
theorem C2_witness :
    (parseMemberFromSignature
        (("createToken") ++ "(" ++
          renderArgs [⟨"name", false, "string"⟩, ⟨"amount", true, "number"⟩] ++ ")")
        "").map (fun m => (m.name, m.params.length))
      = some (("createToken"),
          topLevelGroupCount
            (renderArgs [⟨"name", false, "string"⟩, ⟨"amount", true, "number"⟩])) :=
  C2_member_extraction ("createToken") "" _ (by decide) (by decide) (by decide)

theorem updateFirst_append (bm : BulletMatch) (ps1 : List ParamInfo)
    (h1 : ∀ q ∈ ps1, q.name ≠ bm.name) (p : ParamInfo) (ps2 : List ParamInfo)
    (h2 : p.name = bm.name) :
    updateFirst (ps1 ++ p :: ps2) bm =
      ps1 ++
        { p with
          type := bm.ty.getD p.type
          description :=
            match bm.desc with
            | some d => trimJS d
            | none => p.description } :: ps2 := by
  induction ps1 with
  | nil => simp [updateFirst, h2]
  | cons a t ih =>
    have ha : ¬(a.name = bm.name) := h1 a (List.mem_cons_self _ _)
    rw [List.cons_append, updateFirst, if_neg ha,
      ih (fun q hq => h1 q (List.mem_cons_of_mem _ hq)), List.cons_append]

/-- C4 counterexample: for the member signature foo(a: string) with the
    bullet line - a (number) - the count, the signature-derived type string
    is replaced by the bullet type number: the bullet pass overwrites, it
    does not only backfill. -/
theorem C4_counterexample :
    (sigParams ("foo(a: string)")).map (fun p => (p.name, p.type))
        = [(("a"), ("string"))] ∧
      (parseParams ("- a (number) - the count") ("foo(a: string)")).map
          (fun p => (p.name, p.type, p.description))
        = [(("a"), ("number"), ("the count"))] := by
  exact ⟨rfl, rfl⟩

/-- C4 (amended): one bullet-enrichment step on a parameter list whose
    first bullet-named parameter is p replaces p.type by the bullet type
    whenever the bullet carries one (keeping p.type otherwise) and replaces
    p.description by the trimmed bullet description whenever the bullet
    carries one (keeping p.description otherwise); parameters before p are
    untouched.  Fields already obtained from the signature are thus
    overwritten, not merely backfilled, by a bullet that provides them. -/
theorem C4_enrich_overwrites (bm : BulletMatch) (ps1 : List ParamInfo)
    (p : ParamInfo) (ps2 : List ParamInfo)
    (h1 : ∀ q ∈ ps1, q.name ≠ bm.name) (h2 : p.name = bm.name) :
    enrichStep (ps1 ++ p :: ps2) bm =
      ps1 ++
        { p with
          type := bm.ty.getD p.type
          description :=
            match bm.desc with
            | some d => trimJS d
            | none => p.description } :: ps2 := by
  have hany : ((ps1 ++ p :: ps2).any fun q => q.name = bm.name) = true := by
    rw [List.any_eq_true]
    exact ⟨p, by simp, decide_eq_true h2⟩
  rw [enrichStep, if_pos hany]
  exact updateFirst_append bm ps1 h1 p ps2 h2

/-- C4 witness: a bullet carrying a type and a description applied to a
    one-parameter list whose type came from the signature. -/
theorem C4_witness :
    enrichStep
        [{ name := ("a"), type := ("string"), description := "",
           optional := false }]
        { name := ("a"), ty := some ("number"), desc := some (" the count "),
          full := ("- a (number) - the count") }
      = [] ++
          [{ ({ name := ("a"), type := ("string"), description := "",
                optional := false } : ParamInfo) with
             type :=
               (some ("number")).getD
                 ({ name := ("a"), type := ("string"), description := "",
                    optional := false } : ParamInfo).type
             description :=
               match some (" the count ") with
               | some d => trimJS d
               | none =>
                 ({ name := ("a"), type := ("string"), description := "",
                    optional := false } : ParamInfo).description }] :=
  C4_enrich_overwrites
    { name := ("a"), ty := some ("number"), desc := some (" the count "),
      full := ("- a (number) - the count") }
    []
    { name := ("a"), type := ("string"), description := "", optional := false }
    [] (by decide) (by decide)

theorem parseClassSection_name (nm sec pkg f u : String) (ci : ClassInfo)
    (h : parseClassSection nm sec pkg f u = some ci) : ci.name = nm := by
  unfold parseClassSection at h
  by_cases hskip : skipClassNames.contains nm
  · rw [if_pos hskip] at h
    cases h
  · rw [if_neg hskip] at h
    simp only [Option.some.injEq] at h
    rw [← h]

theorem pass2Step_cases (pkg f u : String) (acc : List ClassInfo)
    (sec : String) :
    typedocPass2Step pkg f u acc sec = acc ∨
      ∃ ci, typedocPass2Step pkg f u acc sec = acc ++ [ci] ∧
        ∀ d ∈ acc, d.name ≠ ci.name := by
  unfold typedocPass2Step
  dsimp only
  split
  · left
    rfl
  · split
    · left
      rfl
    · split
      · left
        rfl
      · split
        · left
          rfl
        · rename_i _ nm hlm hseen _ ci hpc
          right
          refine ⟨ci, rfl, ?_⟩
          intro d hd
          rw [parseClassSection_name nm sec pkg f u ci hpc]
          intro hdn
          apply hseen
          rw [List.any_eq_true]
          exact ⟨d, hd, decide_eq_true hdn⟩

theorem pass2_fold (pkg f u : String) (secs : List String) :
    ∀ acc : List ClassInfo,
      ∃ tail, secs.foldl (typedocPass2Step pkg f u) acc = acc ++ tail ∧
        List.Pairwise (fun a b : ClassInfo => a.name ≠ b.name) tail ∧
        ∀ d ∈ acc, ∀ t ∈ tail, d.name ≠ t.name := by
  induction secs with
  | nil =>
    intro acc
    exact ⟨[], by simp, List.Pairwise.nil, by simp⟩
  | cons s ss ih =>
    intro acc
    rcases pass2Step_cases pkg f u acc s with h | ⟨ci, h, hfresh⟩
    · obtain ⟨tail, h1, h2, h3⟩ := ih acc
      rw [List.foldl_cons, h]
      exact ⟨tail, h1, h2, h3⟩
    · obtain ⟨tail, h1, h2, h3⟩ := ih (acc ++ [ci])
      rw [List.foldl_cons, h]
      refine ⟨ci :: tail, ?_, ?_, ?_⟩
      · rw [h1]
        simp
      · exact List.Pairwise.cons (fun t ht => h3 ci (by simp) t ht) h2
      · intro d hd t ht
        rcases List.mem_cons.mp ht with rfl | ht2
        · exact hfresh d hd
        · exact h3 d (List.mem_append_left _ hd) t ht2

/-- C5 counterexample: a file whose top-level split has two sections both
    introducing the name Foo yields two declarations with the same name:
    the top-level pass never consults the accumulated names, so results are
    not de-duplicated across the whole file. -/
theorem C5_counterexample :
    ((parseTypedocMarkdown ("## Foo\nx\n\n## Foo\ny\n") ("f.md")).map
        (fun ci => ci.name)) = [("Foo"), ("Foo")] ∧
      ¬ List.Pairwise (fun a b : ClassInfo => a.name ≠ b.name)
          (parseTypedocMarkdown ("## Foo\nx\n\n## Foo\ny\n") ("f.md")) := by
  have hmap : ((parseTypedocMarkdown ("## Foo\nx\n\n## Foo\ny\n") ("f.md")).map
      (fun ci => ci.name)) = [("Foo"), ("Foo")] := by decide
  refine ⟨hmap, ?_⟩
  intro h
  have h2 : List.Pairwise (fun a b : String => a ≠ b)
      ((parseTypedocMarkdown ("## Foo\nx\n\n## Foo\ny\n") ("f.md")).map
        (fun ci => ci.name)) :=
    h.map (fun ci : ClassInfo => ci.name) (fun a b hn => hn)
  rw [hmap] at h2
  exact (by decide : ¬ List.Pairwise (fun a b : String => a ≠ b)
    [("Foo"), ("Foo")]) h2

/-- C5 (amended): the nested pass alone de-duplicates by name: every
    Declaration list returned by parseTypedocMarkdown is the top-level pass
    result followed by a tail of pairwise distinctly named declarations
    whose names also avoid every name of the top-level result; the
    top-level pass itself may contribute duplicates. -/
theorem C5_nested_pass_fresh (content filePath : String) :
    ∃ tail,
      parseTypedocMarkdown content filePath
          = typedocPass1 content filePath ++ tail ∧
        List.Pairwise (fun a b : ClassInfo => a.name ≠ b.name) tail ∧
        ∀ d ∈ typedocPass1 content filePath, ∀ t ∈ tail, d.name ≠ t.name := by
  unfold parseTypedocMarkdown
  exact pass2_fold _ _ _ _ (typedocPass1 content filePath)

end GalaDocs
